import Mathlib

/-
  Verification of the TSP metaheuristic core of the `tsp-so` repository.

  The repository implements three TSP engines in TypeScript — Tabu Search
  (src/tabu.ts), Scatter Search (src/scatter.ts) and Ant Colony Optimization
  (the `antColony` draft) — on top of shared primitives (src/common.ts:
  Euclidean distance, closed-tour length, 2-opt segment reversal and the
  exhaustive 2-opt improvement loop) and a nearest-neighbour constructor.

  Modelling conventions:
  * A `Node` is `{id, x, y}` with an integer id and rational coordinates.
  * The source computes `calculateEuclideanDistance` with `Math.hypot`.
    Every property verified here is independent of the actual metric, so all
    definitions take the pairwise distance function `d : Node → Node → ℚ` as
    an explicit parameter standing for `calculateEuclideanDistance`; theorems
    quantify over every `d`, hence in particular cover the Euclidean one.
    Concrete witnesses use `axisDist`, which agrees with the Euclidean
    distance on points lying on the x-axis.
  * JavaScript numbers are modelled as exact rationals; `Infinity` sentinels
    are modelled with `Option ℚ` (`none` = infinity) and the `NaN` poisoning
    of an out-of-range array read in `chooseNextNode` with `Option ℚ`
    (`none` = NaN).
  * `Math.random()` draws are passed in as explicit streams and universally
    quantified in all theorems.
  * Unbounded `while` loops are modelled with an explicit fuel that provably
    suffices (see `twoOptLoop_fuel_stable` and the C9 theorem).
-/

namespace TspSO

/-- A TSP node, as produced by the loader: an integer id and planar
coordinates. -/
structure Node where
  id : ℤ
  x : ℚ
  y : ℚ
deriving DecidableEq, Repr

instance : Inhabited Node := ⟨⟨0, 0, 0⟩⟩

/-- Distance function that coincides with the source's Euclidean
`calculateEuclideanDistance` whenever both points lie on the x-axis
(`Math.hypot (a.x - b.x) 0 = |a.x - b.x|`).  Used to build concrete
witnesses with exactly representable distances. -/
def axisDist (a b : Node) : ℚ := |a.x - b.x|

/-- Embeds `calculateTourDistance` (src/common.ts): the sum of the distances
of consecutive nodes plus the wrap-around edge from the last node back to the
first.  On the empty tour the source dereferences `tour[-1]` and produces a
`TypeError`; no engine evaluates the distance of an empty tour, and the model
returns 0 there. -/
def calculateTourDistance (d : Node → Node → ℚ) : List Node → ℚ
  | [] => 0
  | a :: rest => pathDist d a rest + d (rest.getLastD a) a
where
  /-- Sum of consecutive distances along the open path `a :: rest`. -/
  pathDist (d : Node → Node → ℚ) : Node → List Node → ℚ
    | _, [] => 0
    | a, b :: rest => d a b + pathDist d b rest

/-- Embeds `twoOptSwap` (src/common.ts): the new tour
`[...tour.slice(0, i), ...tour.slice(i, k + 1).reverse(), ...tour.slice(k + 1)]`.
`Array.slice(0, i)` is `take i`, `slice(i, k + 1)` is `drop i` of `take (k+1)`,
and `slice(k + 1)` is `drop (k + 1)`, including the clamping behaviour for
out-of-range indices. -/
def twoOptSwap (tour : List Node) (i k : ℕ) : List Node :=
  tour.take i ++ ((tour.take (k + 1)).drop i).reverse ++ tour.drop (k + 1)

theorem twoOptSwap_perm (t : List Node) {i k : ℕ} (hik : i ≤ k + 1) :
    (twoOptSwap t i k).Perm t := by
  have hseg : (t.take (k + 1)).drop i = (t.drop i).take (k + 1 - i) := by
    rw [List.drop_take]
  have hsplit : (t.drop i).take (k + 1 - i) ++ t.drop (k + 1) = t.drop i := by
    have : (t.drop i).drop (k + 1 - i) = t.drop (k + 1) := by
      rw [List.drop_drop]
      congr 1
      omega
    conv_rhs => rw [← List.take_append_drop (k + 1 - i) (t.drop i)]
    rw [this]
  have h1 : twoOptSwap t i k
      = t.take i ++ (((t.drop i).take (k + 1 - i)).reverse ++ t.drop (k + 1)) := by
    simp [twoOptSwap, hseg]
  have h2 : (t.take i ++ (((t.drop i).take (k + 1 - i)).reverse ++ t.drop (k + 1))).Perm
      (t.take i ++ ((t.drop i).take (k + 1 - i) ++ t.drop (k + 1))) :=
    List.Perm.append_left _ (List.Perm.append_right _ (List.reverse_perm _))
  rw [h1, ← List.take_append_drop i t, ← hsplit]
  simpa [hsplit] using h2

theorem twoOptSwap_length (t : List Node) {i k : ℕ} (hik : i ≤ k + 1) :
    (twoOptSwap t i k).length = t.length :=
  (twoOptSwap_perm t hik).length_eq

/-- The index pairs `(i, k)` visited by the nested loops
`for (i = 1; i < n - 1; i++) for (k = i + 1; k < n; k++)` shared by
`twoOptSwapWithBestImprovement`, `twoOptImproved` and the Tabu Search
neighbourhood scan, in the order the source visits them. -/
def neighborPairs (n : ℕ) : List (ℕ × ℕ) :=
  (List.range n).flatMap fun i =>
    ((List.range n).filter fun k => decide (0 < i ∧ i < k)).map fun k => (i, k)

theorem mem_neighborPairs {n i k : ℕ} (h : (i, k) ∈ neighborPairs n) :
    0 < i ∧ i < k ∧ k < n := by
  simp only [neighborPairs, List.mem_flatMap, List.mem_map, List.mem_filter,
    List.mem_range, decide_eq_true_eq] at h
  obtain ⟨a, ha, b, ⟨hb, h0, hab⟩, heq⟩ := h
  cases heq
  exact ⟨h0, hab, hb⟩

/-- One full sweep of the nested 2-opt improvement loops in
`twoOptSwapWithBestImprovement` (src/common.ts) and `twoOptImproved`
(src/scatter.ts): for each `(i, k)` in order, reverse the segment of the
current best tour and accept the reversal whenever it yields a strictly
shorter tour, recording in the flag whether any reversal was accepted.
In common.ts the comparison uses the cached `bestDistance`, which always
equals `calculateTourDistance(best)`, so both sources compute this same
sweep.  The loop bound `best.length` is constant during the sweep because
every accepted reversal preserves the length. -/
def twoOptPass (d : Node → Node → ℚ) (t : List Node) : List Node × Bool :=
  (neighborPairs t.length).foldl
    (fun st ik =>
      let nt := twoOptSwap st.1 ik.1 ik.2
      if calculateTourDistance d nt < calculateTourDistance d st.1 then (nt, true)
      else st)
    (t, false)

/-- The outer `while (improved)` loop of the exhaustive 2-opt improvement,
with an explicit fuel.  The source's loop is unbounded; the C9 theorem shows
that `length! + 1` units of fuel always reach a sweep that accepts nothing,
so the fuelled model agrees with the source. -/
def twoOptLoop (d : Node → Node → ℚ) : ℕ → List Node → List Node
  | 0, t => t
  | fuel + 1, t =>
    let p := twoOptPass d t
    if p.2 then twoOptLoop d fuel p.1 else p.1

/-- Embeds `twoOptSwapWithBestImprovement` (src/common.ts): exhaustive 2-opt
improvement, sweeping until no improving reversal remains. -/
def twoOptSwapWithBestImprovement (d : Node → Node → ℚ) (t : List Node) : List Node :=
  twoOptLoop d (t.length.factorial + 1) t

/-- Embeds `twoOptImproved` (src/scatter.ts), which performs the same
exhaustive 2-opt improvement as `twoOptSwapWithBestImprovement`, recomputing
the tour distances instead of caching them. -/
def twoOptImproved (d : Node → Node → ℚ) (t : List Node) : List Node :=
  twoOptLoop d (t.length.factorial + 1) t

theorem twoOptPass_foldl_perm (d : Node → Node → ℚ) (t : List Node)
    (ps : List (ℕ × ℕ)) (hps : ∀ ik ∈ ps, ik.1 ≤ ik.2 + 1) :
    ∀ st : List Node × Bool, st.1.Perm t →
      (ps.foldl (fun st ik =>
        let nt := twoOptSwap st.1 ik.1 ik.2
        if calculateTourDistance d nt < calculateTourDistance d st.1 then (nt, true)
        else st) st).1.Perm t := by
  induction ps with
  | nil => intro st hst; exact hst
  | cons ik rest ih =>
    intro st hst
    simp only [List.foldl_cons]
    have hik : ik.1 ≤ ik.2 + 1 := hps ik (List.mem_cons_self ik rest)
    have hrest : ∀ p ∈ rest, p.1 ≤ p.2 + 1 := fun p hp => hps p (List.mem_cons_of_mem _ hp)
    by_cases hlt : calculateTourDistance d (twoOptSwap st.1 ik.1 ik.2) <
        calculateTourDistance d st.1
    · simp only [hlt, if_pos]
      exact ih hrest _ ((twoOptSwap_perm st.1 hik).trans hst)
    · simp only [hlt, if_neg, not_false_iff]
      exact ih hrest _ hst

theorem twoOptPass_perm (d : Node → Node → ℚ) (t : List Node) :
    (twoOptPass d t).1.Perm t := by
  unfold twoOptPass
  exact twoOptPass_foldl_perm d t _
    (fun ik hik => le_of_lt (Nat.lt_succ_of_lt (mem_neighborPairs hik).2.1))
    (t, false) (List.Perm.refl t)

theorem twoOptPass_foldl_dist (d : Node → Node → ℚ) (ps : List (ℕ × ℕ)) :
    ∀ st : List Node × Bool,
      let r := ps.foldl (fun st ik =>
        let nt := twoOptSwap st.1 ik.1 ik.2
        if calculateTourDistance d nt < calculateTourDistance d st.1 then (nt, true)
        else st) st
      calculateTourDistance d r.1 ≤ calculateTourDistance d st.1
      ∧ (st.2 = true → r.2 = true)
      ∧ (r.2 = false → r.1 = st.1)
      ∧ (st.2 = false → r.2 = true →
          calculateTourDistance d r.1 < calculateTourDistance d st.1) := by
  induction ps with
  | nil =>
    intro st
    refine ⟨le_refl _, fun h => h, fun _ => rfl, fun h1 h2 => ?_⟩
    simp only [List.foldl_nil] at h2
    rw [h1] at h2
    exact absurd h2 (by simp)
  | cons ik rest ih =>
    intro st
    simp only [List.foldl_cons]
    by_cases hlt : calculateTourDistance d (twoOptSwap st.1 ik.1 ik.2) <
        calculateTourDistance d st.1
    · simp only [hlt, if_pos]
      obtain ⟨ha, hb, hc, _⟩ := ih (twoOptSwap st.1 ik.1 ik.2, true)
      have htrue := hb rfl
      refine ⟨le_of_lt (lt_of_le_of_lt ha hlt), fun _ => htrue,
        fun hf => absurd htrue (by rw [hf]; simp), fun _ _ => lt_of_le_of_lt ha hlt⟩
    · simp only [hlt, if_neg, not_false_iff]
      exact ih st

theorem twoOptPass_dist_le (d : Node → Node → ℚ) (t : List Node) :
    calculateTourDistance d (twoOptPass d t).1 ≤ calculateTourDistance d t :=
  (twoOptPass_foldl_dist d (neighborPairs t.length) (t, false)).1

theorem twoOptPass_of_not_improved (d : Node → Node → ℚ) (t : List Node)
    (h : (twoOptPass d t).2 = false) : (twoOptPass d t).1 = t :=
  (twoOptPass_foldl_dist d (neighborPairs t.length) (t, false)).2.2.1 h

theorem twoOptPass_dist_lt (d : Node → Node → ℚ) (t : List Node)
    (h : (twoOptPass d t).2 = true) :
    calculateTourDistance d (twoOptPass d t).1 < calculateTourDistance d t :=
  (twoOptPass_foldl_dist d (neighborPairs t.length) (t, false)).2.2.2 rfl h

theorem twoOptLoop_perm (d : Node → Node → ℚ) :
    ∀ (fuel : ℕ) (t : List Node), (twoOptLoop d fuel t).Perm t := by
  intro fuel
  induction fuel with
  | zero => intro t; exact List.Perm.refl t
  | succ f ih =>
    intro t
    show (if (twoOptPass d t).2 then twoOptLoop d f (twoOptPass d t).1
        else (twoOptPass d t).1).Perm t
    by_cases h : (twoOptPass d t).2
    · simp only [h, if_pos]
      exact (ih (twoOptPass d t).1).trans (twoOptPass_perm d t)
    · simp only [h, if_neg, not_false_iff]
      exact twoOptPass_perm d t

/-- Termination measure for the exhaustive 2-opt loop launched from tour
`t0`: the number of distinct tour lengths of permutations of `t0` that are
strictly below the length of the current tour `b`.  Every accepted sweep
strictly decreases it. -/
def twoOptMeasure (d : Node → Node → ℚ) (t0 b : List Node) : ℕ :=
  ((t0.permutations.map (calculateTourDistance d)).toFinset.filter
    (fun q => q < calculateTourDistance d b)).card

theorem twoOptMeasure_lt (d : Node → Node → ℚ) {t0 b b' : List Node}
    (hb' : b'.Perm t0)
    (hlt : calculateTourDistance d b' < calculateTourDistance d b) :
    twoOptMeasure d t0 b' < twoOptMeasure d t0 b := by
  apply Finset.card_lt_card
  constructor
  · intro q hq
    simp only [Finset.mem_filter] at hq ⊢
    exact ⟨hq.1, lt_trans hq.2 hlt⟩
  · intro hsub
    have hmem : calculateTourDistance d b' ∈
        (t0.permutations.map (calculateTourDistance d)).toFinset.filter
          (fun q => q < calculateTourDistance d b) := by
      simp only [Finset.mem_filter, List.mem_toFinset, List.mem_map]
      exact ⟨⟨b', List.mem_permutations.mpr hb', rfl⟩, hlt⟩
    have := hsub hmem
    simp only [Finset.mem_filter] at this
    exact absurd this.2 (lt_irrefl _)

theorem twoOptMeasure_le (d : Node → Node → ℚ) (t0 b : List Node) :
    twoOptMeasure d t0 b ≤ t0.length.factorial := by
  calc twoOptMeasure d t0 b
      ≤ (t0.permutations.map (calculateTourDistance d)).toFinset.card :=
        Finset.card_filter_le _ _
    _ ≤ (t0.permutations.map (calculateTourDistance d)).length :=
        List.toFinset_card_le _
    _ = t0.length.factorial := by
        rw [List.length_map, List.length_permutations]

theorem twoOptLoop_fixpoint (d : Node → Node → ℚ) (t0 : List Node) :
    ∀ (fuel : ℕ) (b : List Node), b.Perm t0 → twoOptMeasure d t0 b < fuel →
      (twoOptPass d (twoOptLoop d fuel b)).2 = false := by
  intro fuel
  induction fuel with
  | zero => intro b _ h; exact absurd h (Nat.not_lt_zero _)
  | succ f ih =>
    intro b hperm hmu
    show (twoOptPass d (if (twoOptPass d b).2 then twoOptLoop d f (twoOptPass d b).1
        else (twoOptPass d b).1)).2 = false
    by_cases h : (twoOptPass d b).2
    · simp only [h, if_pos]
      have hpp : (twoOptPass d b).1.Perm t0 := (twoOptPass_perm d b).trans hperm
      have hmu' : twoOptMeasure d t0 (twoOptPass d b).1 < f := by
        have h1 := twoOptMeasure_lt d hpp (twoOptPass_dist_lt d b h)
        omega
      exact ih _ hpp hmu'
    · simp only [h, if_neg, not_false_iff]
      rw [twoOptPass_of_not_improved d b (Bool.not_eq_true _ ▸ (by simpa using h))]
      simpa using h

theorem twoOptLoop_fuel_stable (d : Node → Node → ℚ) (t0 : List Node) :
    ∀ (f1 f2 : ℕ) (b : List Node), b.Perm t0 → twoOptMeasure d t0 b < f1 →
      twoOptMeasure d t0 b < f2 → twoOptLoop d f1 b = twoOptLoop d f2 b := by
  intro f1
  induction f1 with
  | zero => intro f2 b _ h; exact absurd h (Nat.not_lt_zero _)
  | succ g ih =>
    intro f2 b hperm h1 h2
    match f2 with
    | 0 => exact absurd h2 (Nat.not_lt_zero _)
    | f2' + 1 =>
      show (if (twoOptPass d b).2 then twoOptLoop d g (twoOptPass d b).1
          else (twoOptPass d b).1)
        = (if (twoOptPass d b).2 then twoOptLoop d f2' (twoOptPass d b).1
          else (twoOptPass d b).1)
      by_cases h : (twoOptPass d b).2
      · simp only [h, if_pos]
        have hpp : (twoOptPass d b).1.Perm t0 := (twoOptPass_perm d b).trans hperm
        have hmu := twoOptMeasure_lt d hpp (twoOptPass_dist_lt d b h)
        exact ih f2' _ hpp (by omega) (by omega)
      · simp [h]

section TwoOptSwapShape

variable {t : List Node} {i k : ℕ}

theorem twoOptSwap_take_len (h1 : i < k) (h2 : k < t.length) :
    (t.take i).length = i := by
  rw [List.length_take]
  omega

theorem twoOptSwap_mid_len (h1 : i < k) (h2 : k < t.length) :
    (((t.take (k + 1)).drop i).reverse).length = k + 1 - i := by
  rw [List.length_reverse, List.length_drop, List.length_take]
  omega

theorem twoOptSwap_take (h1 : i < k) (h2 : k < t.length) :
    (twoOptSwap t i k).take i = t.take i := by
  unfold twoOptSwap
  rw [List.append_assoc, List.take_append_of_le_length (by rw [twoOptSwap_take_len h1 h2]),
    List.take_take]
  simp [List.take_take, Nat.min_self, twoOptSwap_take_len h1 h2, List.take_length]

theorem twoOptSwap_drop (h1 : i < k) (h2 : k < t.length) :
    (twoOptSwap t i k).drop (k + 1) = t.drop (k + 1) := by
  unfold twoOptSwap
  exact List.drop_left' (by
    rw [List.length_append, twoOptSwap_take_len h1 h2, twoOptSwap_mid_len h1 h2]
    omega)

theorem twoOptSwap_mid (h1 : i < k) (h2 : k < t.length) :
    ((twoOptSwap t i k).take (k + 1)).drop i = ((t.take (k + 1)).drop i).reverse := by
  unfold twoOptSwap
  rw [List.take_left' (by
    rw [List.length_append, twoOptSwap_take_len h1 h2, twoOptSwap_mid_len h1 h2]
    omega : (t.take i ++ ((t.take (k + 1)).drop i).reverse).length = k + 1)]
  exact List.drop_left' (twoOptSwap_take_len h1 h2)

theorem twoOptSwap_involutive (h1 : i < k) (h2 : k < t.length) :
    twoOptSwap (twoOptSwap t i k) i k = t := by
  have hu : twoOptSwap (twoOptSwap t i k) i k
      = (twoOptSwap t i k).take i
        ++ (((twoOptSwap t i k).take (k + 1)).drop i).reverse
        ++ (twoOptSwap t i k).drop (k + 1) := rfl
  rw [hu, twoOptSwap_take h1 h2, twoOptSwap_mid h1 h2, twoOptSwap_drop h1 h2,
    List.reverse_reverse]
  have hsplit : t.take i ++ (t.take (k + 1)).drop i = t.take (k + 1) := by
    have : t.take i = (t.take (k + 1)).take i := by
      rw [List.take_take]
      congr 1
      omega
    rw [this, List.take_append_drop]
  rw [List.append_assoc, ← List.append_assoc, hsplit, List.take_append_drop]

end TwoOptSwapShape

/-- C6: for every tour and all indices 0 ≤ i < k < length(tour),
`twoOptSwap(tour, i, k)` returns a tour whose positions inside [i, k] are the
reversal of the input's (its slice over [i, k] equals the reverse of the
input's slice over [i, k]) and whose positions outside [i, k] are unchanged
(its prefix before i and its suffix after k equal the input's), with the
same length; applying `twoOptSwap` twice with the same i and k returns the
original tour.  The embedding is a pure function, so the input is never
mutated and the result is referentially independent. -/
theorem claim_C6 (t : List Node) (i k : ℕ) (h1 : i < k) (h2 : k < t.length) :
    (twoOptSwap t i k).length = t.length
    ∧ (twoOptSwap t i k).take i = t.take i
    ∧ (twoOptSwap t i k).drop (k + 1) = t.drop (k + 1)
    ∧ ((twoOptSwap t i k).take (k + 1)).drop i = ((t.take (k + 1)).drop i).reverse
    ∧ twoOptSwap (twoOptSwap t i k) i k = t :=
  ⟨twoOptSwap_length t (by omega), twoOptSwap_take h1 h2, twoOptSwap_drop h1 h2,
    twoOptSwap_mid h1 h2, twoOptSwap_involutive h1 h2⟩

/-- Four nodes on the x-axis (ids 1–4) in a deliberately suboptimal order,
used as concrete input for witnesses. -/
def pts4 : List Node := [⟨1, 0, 0⟩, ⟨2, 2, 0⟩, ⟨3, 1, 0⟩, ⟨4, 3, 0⟩]

/-- Three nodes on the x-axis (ids 1–3), used as concrete input for
witnesses. -/
def pts3 : List Node := [⟨1, 0, 0⟩, ⟨2, 1, 0⟩, ⟨3, 2, 0⟩]

/-- Witness for C6 at the concrete tour `pts4` with i = 1, k = 2. -/
theorem claim_C6_witness :
    1 < 2 ∧ 2 < pts4.length
    ∧ ((twoOptSwap pts4 1 2).length = pts4.length
      ∧ (twoOptSwap pts4 1 2).take 1 = pts4.take 1
      ∧ (twoOptSwap pts4 1 2).drop 3 = pts4.drop 3
      ∧ ((twoOptSwap pts4 1 2).take 3).drop 1 = ((pts4.take 3).drop 1).reverse
      ∧ twoOptSwap (twoOptSwap pts4 1 2) 1 2 = pts4) :=
  ⟨by decide, by decide, claim_C6 pts4 1 2 (by decide) (by decide)⟩

/-- C9: `twoOptSwapWithBestImprovement` terminates on every input tour.
Each sweep that accepts a swap strictly decreases the tour distance (third
conjunct); the distances of the tours it visits all belong to the finite set
of distances of permutations of the input, so after at most length! + 1
sweeps a sweep accepts nothing and the `while (improved)` loop exits: the
fuelled model reaches a sweep with `improved = false` (first conjunct) and
adding further fuel does not change the result (second conjunct).  This
holds for every distance function `d`. -/
theorem claim_C9 (d : Node → Node → ℚ) (t : List Node) (fuel : ℕ)
    (hfuel : t.length.factorial + 1 ≤ fuel) :
    (twoOptPass d (twoOptSwapWithBestImprovement d t)).2 = false
    ∧ twoOptLoop d fuel t = twoOptSwapWithBestImprovement d t
    ∧ ((twoOptPass d t).2 = true →
        calculateTourDistance d (twoOptPass d t).1 < calculateTourDistance d t) := by
  have hmu : twoOptMeasure d t t < t.length.factorial + 1 :=
    Nat.lt_succ_of_le (twoOptMeasure_le d t t)
  refine ⟨twoOptLoop_fixpoint d t _ t (List.Perm.refl t) hmu, ?_, twoOptPass_dist_lt d t⟩
  exact twoOptLoop_fuel_stable d t fuel (t.length.factorial + 1) t (List.Perm.refl t)
    (lt_of_lt_of_le hmu hfuel) hmu

/-- Witness for C9 at the concrete tour `pts4` (length 4, fuel 4! + 1 = 25)
with the axis-aligned Euclidean distance. -/
theorem claim_C9_witness :
    pts4.length.factorial + 1 ≤ 25
    ∧ ((twoOptPass axisDist (twoOptSwapWithBestImprovement axisDist pts4)).2 = false
      ∧ twoOptLoop axisDist 25 pts4 = twoOptSwapWithBestImprovement axisDist pts4
      ∧ ((twoOptPass axisDist pts4).2 = true →
          calculateTourDistance axisDist (twoOptPass axisDist pts4).1 <
            calculateTourDistance axisDist pts4)) :=
  ⟨by decide, claim_C9 axisDist pts4 25 (by decide)⟩

/-! ### Tabu Search (src/tabu.ts) -/

/-- Node lookup `tour[i]`; every use in the sources is in range. -/
def idAt (l : List Node) (i : ℕ) : ℤ := (l.getD i default).id

/-- Embeds the move key `` `${Math.min(idA, idB)}-${Math.max(idA, idB)}` ``
recorded for a 2-opt move in `tabuSearch`. -/
def moveKey (a b : ℤ) : String := s!"{min a b}-{max a b}"

/-- State of a `tabuSearch` run: the current solution, the best solution and
its distance, the tabu lookup set (`tabuList : Set<string>`) and the FIFO
queue (`tabuQueue : string[]`). -/
structure TabuState where
  current : List Node
  bestSolution : List Node
  bestDistance : ℚ
  tabuList : Finset String
  tabuQueue : List String

/-- Embeds the neighbourhood scan of one `tabuSearch` iteration: every 2-opt
neighbour of the current solution (indices from `neighborPairs`) is examined
in order; a neighbour is admissible when its move key is not tabu or its
distance beats the best distance found so far in the run (aspiration), and
among admissible neighbours the strictly shortest one seen first is kept.
Returns the chosen neighbour, its distance and its move key, or `none` when
no neighbour is admissible (`bestNeighbor === null`). -/
def tabuScanStep (d : Node → Node → ℚ) (s : TabuState)
    (acc : Option (List Node × ℚ × String)) (ik : ℕ × ℕ) :
    Option (List Node × ℚ × String) :=
  let nt := twoOptSwap s.current ik.1 ik.2
  let key := moveKey (idAt s.current ik.1) (idAt s.current ik.2)
  let nd := calculateTourDistance d nt
  if key ∉ s.tabuList ∨ nd < s.bestDistance then
    match acc with
    | none => some (nt, nd, key)
    | some prev => if nd < prev.2.1 then some (nt, nd, key) else acc
  else acc

def tabuScan (d : Node → Node → ℚ) (s : TabuState) :
    Option (List Node × ℚ × String) :=
  (neighborPairs s.current.length).foldl (tabuScanStep d s) none

/-- Embeds the tabu bookkeeping at the end of a `tabuSearch` iteration
(src/tabu.ts lines 68–73): the move key is added to the tabu set and pushed
on the FIFO queue, and when the queue exceeds `tabuTenure` its oldest entry
is shifted off and removed from the set. -/
def tabuPush (tabuTenure : ℤ) (key : String) (q : List String)
    (l : Finset String) : List String × Finset String :=
  let q1 := q ++ [key]
  let l1 := insert key l
  if (q1.length : ℤ) > tabuTenure then
    match q1 with
    | [] => ([], l1)
    | h :: rest => (rest, l1.erase h)
  else (q1, l1)

/-- Embeds one iteration of the `tabuSearch` main loop: if the scan found no
admissible neighbour the iteration is skipped (`continue`); otherwise the
current solution moves to the chosen neighbour, the global best is updated
on strict improvement, and the move key is recorded via `tabuPush`. -/
def tabuStep (d : Node → Node → ℚ) (tabuTenure : ℤ) (s : TabuState) : TabuState :=
  match tabuScan d s with
  | none => s
  | some (bn, bd, key) =>
    let s1 : TabuState :=
      if bd < s.bestDistance then
        { s with current := bn, bestDistance := bd, bestSolution := bn }
      else { s with current := bn }
    let p := tabuPush tabuTenure key s1.tabuQueue s1.tabuList
    { s1 with tabuQueue := p.1, tabuList := p.2 }

/-- Initial `tabuSearch` state: current = best = the input order, best
distance = its tour distance, empty tabu structures. -/
def tabuInit (d : Node → Node → ℚ) (nodes : List Node) : TabuState :=
  { current := nodes
    bestSolution := nodes
    bestDistance := calculateTourDistance d nodes
    tabuList := ∅
    tabuQueue := [] }

/-- The `tabuSearch` state after `j` iterations of the main loop. -/
def tabuStateAt (d : Node → Node → ℚ) (tabuTenure : ℤ) (nodes : List Node) :
    ℕ → TabuState
  | 0 => tabuInit d nodes
  | j + 1 => tabuStep d tabuTenure (tabuStateAt d tabuTenure nodes j)

/-- Embeds `tabuSearch` (src/tabu.ts): runs `maxIterations` iterations (the
`for` loop executes `max(maxIterations, 0)` times) and returns
`(bestSolution, bestDistance, initialDistance)`.  The elapsed-time field of
the source's result is real time and is not modelled.  The source performs
no validation of `maxIterations` or `tabuTenure`. -/
def tabuSearch (d : Node → Node → ℚ) (nodes : List Node)
    (maxIterations tabuTenure : ℤ) : List Node × ℚ × ℚ :=
  let s := tabuStateAt d tabuTenure nodes maxIterations.toNat
  (s.bestSolution, s.bestDistance, calculateTourDistance d nodes)

theorem tabuScanStep_some (d : Node → Node → ℚ) (s : TabuState)
    (acc : Option (List Node × ℚ × String)) (ik : ℕ × ℕ)
    (hikb : ik.1 ≤ ik.2 + 1)
    (hacc : ∀ r, acc = some r → r.1.Perm s.current) :
    ∀ r, tabuScanStep d s acc ik = some r → r.1.Perm s.current := by
  intro r hr
  unfold tabuScanStep at hr
  simp only at hr
  by_cases hcond : moveKey (idAt s.current ik.1) (idAt s.current ik.2) ∉ s.tabuList
      ∨ calculateTourDistance d (twoOptSwap s.current ik.1 ik.2) < s.bestDistance
  · rw [if_pos hcond] at hr
    match acc, hacc with
    | none, _ =>
      simp only [Option.some.injEq] at hr
      rw [← hr]
      exact twoOptSwap_perm s.current hikb
    | some prev, hacc =>
      by_cases hlt : calculateTourDistance d (twoOptSwap s.current ik.1 ik.2) < prev.2.1
      · simp only [hlt, if_pos, Option.some.injEq] at hr
        rw [← hr]
        exact twoOptSwap_perm s.current hikb
      · simp only [hlt, if_neg, not_false_iff] at hr
        exact hacc r hr
  · rw [if_neg hcond] at hr
    exact hacc r hr

theorem tabuScan_some (d : Node → Node → ℚ) (s : TabuState) :
    ∀ r, tabuScan d s = some r → r.1.Perm s.current := by
  unfold tabuScan
  exact List.foldlRecOn
    (motive := fun acc => ∀ r, acc = some r → r.1.Perm s.current)
    (neighborPairs s.current.length) (tabuScanStep d s) none
    (fun r hr => absurd hr (by simp))
    (fun acc hacc ik hik => tabuScanStep_some d s acc ik
      (le_of_lt (Nat.lt_succ_of_lt (mem_neighborPairs hik).2.1)) hacc)

theorem tabuStep_perm (d : Node → Node → ℚ) (tenure : ℤ) (s : TabuState)
    (hc : s.current.Perm s.bestSolution) :
    (tabuStep d tenure s).current.Perm s.current
    ∧ (tabuStep d tenure s).bestSolution.Perm s.current := by
  unfold tabuStep
  match hscan : tabuScan d s with
  | none => exact ⟨List.Perm.refl _, hc.symm⟩
  | some (bn, bd, key) =>
    have hbn : bn.Perm s.current := tabuScan_some d s (bn, bd, key) hscan
    by_cases hbd : bd < s.bestDistance
    · simp only [hbd, if_pos]
      exact ⟨hbn, hbn⟩
    · simp only [hbd, if_neg, not_false_iff]
      exact ⟨hbn, hc.symm⟩

theorem tabuStep_bestDistance_le (d : Node → Node → ℚ) (tenure : ℤ)
    (s : TabuState) : (tabuStep d tenure s).bestDistance ≤ s.bestDistance := by
  unfold tabuStep
  match hscan : tabuScan d s with
  | none => exact le_refl _
  | some (bn, bd, key) =>
    by_cases hbd : bd < s.bestDistance
    · simp only [hbd, if_pos]
      exact le_of_lt hbd
    · simp only [hbd, if_neg, not_false_iff]
      exact le_refl _

theorem tabuPush_length (tenure : ℤ) (key : String) (q : List String)
    (l : Finset String) (hlen : (q.length : ℤ) ≤ tenure) :
    (((tabuPush tenure key q l).1.length : ℤ)) ≤ tenure := by
  unfold tabuPush
  by_cases hgt : ((q ++ [key]).length : ℤ) > tenure
  · simp only [hgt, if_pos]
    match hq : q ++ [key] with
    | [] => simp at hq
    | h :: rest =>
      have : rest.length + 1 = q.length + 1 := by
        have := congrArg List.length hq
        simpa using this.symm
      simp only []
      omega
  · simp only [hgt, if_neg, not_false_iff]
    push_cast at hgt ⊢
    simp only [List.length_append, List.length_cons, List.length_nil] at hgt ⊢
    omega

theorem tabuPush_subset (tenure : ℤ) (key : String) (q : List String)
    (l : Finset String) (hsub : ∀ x ∈ l, x ∈ q) :
    ∀ x ∈ (tabuPush tenure key q l).2, x ∈ (tabuPush tenure key q l).1 := by
  unfold tabuPush
  have hmem : ∀ x ∈ insert key l, x ∈ q ++ [key] := by
    intro x hx
    rcases Finset.mem_insert.mp hx with h | h
    · exact List.mem_append_right _ (by simp [h])
    · exact List.mem_append_left _ (hsub x h)
  by_cases hgt : ((q ++ [key]).length : ℤ) > tenure
  · simp only [hgt, if_pos]
    match hq : q ++ [key] with
    | [] => simp at hq
    | h :: rest =>
      intro x hx
      simp only [] at hx ⊢
      have hx' := Finset.mem_erase.mp hx
      have := hmem x hx'.2
      rw [hq] at this
      rcases List.mem_cons.mp this with heq | hmem'
      · exact absurd heq hx'.1
      · exact hmem'
  · simp only [hgt, if_neg, not_false_iff]
    exact hmem

theorem tabuPush_evict (tenure : ℤ) (key : String) (q : List String)
    (l : Finset String) (h : ((q.length : ℤ) + 1) > tenure) :
    (tabuPush tenure key q l).1 = (q ++ [key]).tail := by
  unfold tabuPush
  have hgt : ((q ++ [key]).length : ℤ) > tenure := by
    simp only [List.length_append, List.length_cons, List.length_nil]
    push_cast
    omega
  simp only [hgt, if_pos]
  match hq : q ++ [key] with
  | [] => simp at hq
  | h :: rest => simp

/-- Size bound on the tabu lookup set given that each of its members occurs
in the queue. -/
theorem tabuList_card_le (l : Finset String) (q : List String)
    (hsub : ∀ x ∈ l, x ∈ q) : l.card ≤ q.length := by
  calc l.card ≤ q.toFinset.card :=
        Finset.card_le_card (fun x hx => List.mem_toFinset.mpr (hsub x hx))
    _ ≤ q.length := List.toFinset_card_le q

theorem tabuStateAt_tabu_inv (d : Node → Node → ℚ) (tenure : ℤ)
    (nodes : List Node) (ht : 0 ≤ tenure) (j : ℕ) :
    (∀ x ∈ (tabuStateAt d tenure nodes j).tabuList,
      x ∈ (tabuStateAt d tenure nodes j).tabuQueue)
    ∧ (((tabuStateAt d tenure nodes j).tabuQueue.length : ℤ)) ≤ tenure := by
  induction j with
  | zero => exact ⟨fun x hx => absurd hx (by simp [tabuStateAt, tabuInit]), by
      simp [tabuStateAt, tabuInit]
      exact ht⟩
  | succ j ih =>
    obtain ⟨hsub, hlen⟩ := ih
    show (∀ x ∈ (tabuStep d tenure (tabuStateAt d tenure nodes j)).tabuList,
        x ∈ (tabuStep d tenure (tabuStateAt d tenure nodes j)).tabuQueue)
      ∧ (((tabuStep d tenure (tabuStateAt d tenure nodes j)).tabuQueue.length : ℤ)) ≤ tenure
    set s := tabuStateAt d tenure nodes j with hs
    unfold tabuStep
    match hscan : tabuScan d s with
    | none => exact ⟨hsub, hlen⟩
    | some (bn, bd, key) =>
      by_cases hbd : bd < s.bestDistance <;>
        simp only [hbd, if_pos, if_neg, not_false_iff] <;>
        exact ⟨tabuPush_subset tenure key s.tabuQueue s.tabuList hsub,
          tabuPush_length tenure key s.tabuQueue s.tabuList hlen⟩

/-- C5: at every iteration boundary of a `tabuSearch` run with tenure ≥ 0,
the tabu FIFO queue holds at most `tabuTenure` entries and the tabu lookup
set at most `tabuTenure` keys; and whenever an iteration records a move key
while the queue is at a level that would exceed capacity after the push, the
new queue is the pushed queue with its oldest entry (its head) removed. -/
theorem claim_C5 (d : Node → Node → ℚ) (nodes : List Node) (tenure : ℤ)
    (ht : 0 ≤ tenure) (j : ℕ) :
    (((tabuStateAt d tenure nodes j).tabuQueue.length : ℤ)) ≤ tenure
    ∧ (((tabuStateAt d tenure nodes j).tabuList.card : ℤ)) ≤ tenure
    ∧ (∀ bn bd key, tabuScan d (tabuStateAt d tenure nodes j) = some (bn, bd, key) →
        (((tabuStateAt d tenure nodes j).tabuQueue.length : ℤ) + 1) > tenure →
        (tabuStateAt d tenure nodes (j + 1)).tabuQueue
          = ((tabuStateAt d tenure nodes j).tabuQueue ++ [key]).tail) := by
  obtain ⟨hsub, hlen⟩ := tabuStateAt_tabu_inv d tenure nodes ht j
  refine ⟨hlen, ?_, ?_⟩
  · calc ((tabuStateAt d tenure nodes j).tabuList.card : ℤ)
        ≤ ((tabuStateAt d tenure nodes j).tabuQueue.length : ℤ) := by
          exact_mod_cast tabuList_card_le _ _ hsub
      _ ≤ tenure := hlen
  · intro bn bd key hscan hover
    show (tabuStep d tenure (tabuStateAt d tenure nodes j)).tabuQueue = _
    set s := tabuStateAt d tenure nodes j with hs
    unfold tabuStep
    rw [hscan]
    by_cases hbd : bd < s.bestDistance <;>
      simp only [hbd, if_pos, if_neg, not_false_iff] <;>
      exact tabuPush_evict tenure key s.tabuQueue s.tabuList hover

/-- Witness for C5 with the axis distance on `pts3`, tenure 1, after 2
iterations. -/
theorem claim_C5_witness :
    (0 : ℤ) ≤ 1
    ∧ ((((tabuStateAt axisDist 1 pts3 2).tabuQueue.length : ℤ)) ≤ 1
      ∧ (((tabuStateAt axisDist 1 pts3 2).tabuList.card : ℤ)) ≤ 1
      ∧ (∀ bn bd key, tabuScan axisDist (tabuStateAt axisDist 1 pts3 2) = some (bn, bd, key) →
          (((tabuStateAt axisDist 1 pts3 2).tabuQueue.length : ℤ) + 1) > 1 →
          (tabuStateAt axisDist 1 pts3 3).tabuQueue
            = ((tabuStateAt axisDist 1 pts3 2).tabuQueue ++ [key]).tail)) :=
  ⟨by decide, claim_C5 axisDist pts3 1 (by decide) 2⟩

theorem tabuStateAt_perm (d : Node → Node → ℚ) (tenure : ℤ) (nodes : List Node)
    (j : ℕ) : (tabuStateAt d tenure nodes j).current.Perm nodes
      ∧ (tabuStateAt d tenure nodes j).bestSolution.Perm nodes := by
  induction j with
  | zero => exact ⟨List.Perm.refl _, List.Perm.refl _⟩
  | succ j ih =>
    obtain ⟨hcur, hbest⟩ := ih
    have hc : (tabuStateAt d tenure nodes j).current.Perm
        (tabuStateAt d tenure nodes j).bestSolution := hcur.trans hbest.symm
    obtain ⟨h1, h2⟩ := tabuStep_perm d tenure (tabuStateAt d tenure nodes j) hc
    exact ⟨h1.trans hcur, h2.trans hcur⟩

theorem tabuStateAt_bestDistance_le (d : Node → Node → ℚ) (tenure : ℤ)
    (nodes : List Node) (j : ℕ) :
    (tabuStateAt d tenure nodes j).bestDistance ≤ calculateTourDistance d nodes := by
  induction j with
  | zero => exact le_refl _
  | succ j ih =>
    exact le_trans (tabuStep_bestDistance_le d tenure (tabuStateAt d tenure nodes j)) ih

/-! ### Nearest-neighbour constructor (`nearestNeighbor`, also imported as
`nearestNeighbour` by the Ant Colony and Scatter Search drafts) -/

/-- Embeds the inner scan of `nearestNeighbor`: iterate over all nodes in
order, skip the ones whose id was already visited, and keep the first
strictly nearest node (`minDistance` starts at `Infinity`, modelled by the
`none` accumulator). -/
def findNearest (d : Node → Node → ℚ) (nodes : List Node) (last : Node)
    (visited : Finset ℤ) : Option (Node × ℚ) :=
  nodes.foldl
    (fun acc nd =>
      if nd.id ∈ visited then acc
      else
        match acc with
        | none => some (nd, d last nd)
        | some prev => if d last nd < prev.2 then some (nd, d last nd) else acc)
    none

/-- Embeds the `while (tour.length < nodes.length)` loop of
`nearestNeighbor` with fuel.  When the scan finds no nearest node the source
spins forever without changing state; the model burns fuel in that branch.
For inputs with pairwise distinct ids the scan always succeeds (proved
below), so fuel `nodes.length` makes the model agree with the source. -/
def nnLoop (d : Node → Node → ℚ) (nodes : List Node) :
    ℕ → List Node → Finset ℤ → List Node
  | 0, tour, _ => tour
  | fuel + 1, tour, visited =>
    if tour.length < nodes.length then
      match findNearest d nodes (tour.getLastD default) visited with
      | some nd => nnLoop d nodes fuel (tour ++ [nd.1]) (insert nd.1.id visited)
      | none => nnLoop d nodes fuel tour visited
    else tour

/-- Embeds `nearestNeighbor` (the repository's nearest-neighbour
constructor): picks `nodes[Math.floor(Math.random() * nodes.length)]` as the
start (the random draw is passed in as `r`, reduced modulo the length) and
greedily extends the tour with the nearest unvisited node.  On an empty
input the source evaluates `undefined.id` and throws a `TypeError`. -/
def nearestNeighbor (d : Node → Node → ℚ) (r : ℕ) (nodes : List Node) :
    Except String (List Node) :=
  match nodes with
  | [] => .error "TypeError: Cannot read properties of undefined (reading id)"
  | _ :: _ =>
    let startNode := nodes.getD (r % nodes.length) default
    .ok (nnLoop d nodes nodes.length [startNode] {startNode.id})

theorem findNearest_some (d : Node → Node → ℚ) (nodes : List Node)
    (last : Node) (visited : Finset ℤ) :
    ∀ r : Node × ℚ, findNearest d nodes last visited = some r →
      r.1 ∈ nodes ∧ r.1.id ∉ visited := by
  unfold findNearest
  exact List.foldlRecOn
    (motive := fun acc => ∀ r : Node × ℚ, acc = some r → r.1 ∈ nodes ∧ r.1.id ∉ visited)
    nodes _ none (fun r hr => absurd hr (by simp))
    (by
      intro acc hacc nd hnd r hr
      by_cases hv : nd.id ∈ visited
      · rw [if_pos hv] at hr
        exact hacc r hr
      · rw [if_neg hv] at hr
        match acc, hacc with
        | none, _ =>
          simp only [Option.some.injEq] at hr
          rw [← hr]
          exact ⟨hnd, hv⟩
        | some prev, hacc =>
          by_cases hlt : d last nd < prev.2
          · simp only [hlt, if_pos, Option.some.injEq] at hr
            rw [← hr]
            exact ⟨hnd, hv⟩
          · simp only [hlt, if_neg, not_false_iff] at hr
            exact hacc r hr)

theorem findNearest_eq_none (d : Node → Node → ℚ) (last : Node)
    (visited : Finset ℤ) :
    ∀ (nodes : List Node) (acc : Option (Node × ℚ)), nodes.foldl
      (fun acc nd =>
        if nd.id ∈ visited then acc
        else
          match acc with
          | none => some (nd, d last nd)
          | some prev => if d last nd < prev.2 then some (nd, d last nd) else acc)
      acc = none →
      acc = none ∧ ∀ nd ∈ nodes, nd.id ∈ visited := by
  intro nodes
  induction nodes with
  | nil => intro acc h; exact ⟨h, by simp⟩
  | cons nd rest ih =>
    intro acc h
    rw [List.foldl_cons] at h
    obtain ⟨hstep, hrest⟩ := ih _ h
    by_cases hv : nd.id ∈ visited
    · rw [if_pos hv] at hstep
      exact ⟨hstep, by
        intro x hx
        rcases List.mem_cons.mp hx with rfl | hx'
        · exact hv
        · exact hrest x hx'⟩
    · rw [if_neg hv] at hstep
      match acc with
      | none => simp at hstep
      | some prev =>
        by_cases hlt : d last nd < prev.2 <;> simp [hlt] at hstep

theorem findNearest_isSome (d : Node → Node → ℚ) (nodes : List Node)
    (last : Node) (visited : Finset ℤ)
    (h : ∃ nd ∈ nodes, nd.id ∉ visited) :
    ∃ r, findNearest d nodes last visited = some r := by
  match hr : findNearest d nodes last visited with
  | some r => exact ⟨r, rfl⟩
  | none =>
    obtain ⟨nd, hnd, hv⟩ := h
    obtain ⟨-, hall⟩ := findNearest_eq_none d last visited nodes none hr
    exact absurd (hall nd hnd) hv

theorem tour_length_le (nodes tour : List Node)
    (hnd : (tour.map fun v => v.id).Nodup) (hmem : ∀ x ∈ tour, x ∈ nodes) :
    tour.length ≤ nodes.length := by
  have hsub : (tour.map fun v => v.id) ⊆ (nodes.map fun v => v.id) := by
    intro x hx
    obtain ⟨v, hv, rfl⟩ := List.mem_map.mp hx
    exact List.mem_map.mpr ⟨v, hmem v hv, rfl⟩
  have := (List.subperm_of_subset hnd hsub).length_le
  simpa using this

theorem nnLoop_complete (d : Node → Node → ℚ) (nodes : List Node)
    (hnodup : (nodes.map fun v => v.id).Nodup) :
    ∀ (fuel : ℕ) (tour : List Node) (visited : Finset ℤ),
      visited = (tour.map fun v => v.id).toFinset →
      (tour.map fun v => v.id).Nodup →
      (∀ x ∈ tour, x ∈ nodes) →
      nodes.length ≤ tour.length + fuel →
      (nnLoop d nodes fuel tour visited).length = nodes.length
      ∧ (∀ x ∈ nnLoop d nodes fuel tour visited, x ∈ nodes)
      ∧ ((nnLoop d nodes fuel tour visited).map fun v => v.id).Nodup := by
  intro fuel
  induction fuel with
  | zero =>
    intro tour visited hvis hnd hmem hlen
    have hle := tour_length_le nodes tour hnd hmem
    have : (nnLoop d nodes 0 tour visited) = tour := rfl
    rw [this]
    exact ⟨by omega, hmem, hnd⟩
  | succ fuel ih =>
    intro tour visited hvis hnd hmem hlen
    by_cases hlt : tour.length < nodes.length
    · have hex : ∃ nd ∈ nodes, nd.id ∉ visited := by
        by_contra hall
        push_neg at hall
        have hsub : (nodes.map fun v => v.id) ⊆ (tour.map fun v => v.id) := by
          intro x hx
          obtain ⟨v, hv, rfl⟩ := List.mem_map.mp hx
          have := hall v hv
          rw [hvis] at this
          exact List.mem_toFinset.mp this
        have := (List.subperm_of_subset hnodup hsub).length_le
        simp only [List.length_map] at this
        omega
      obtain ⟨nd, hndeq⟩ := findNearest_isSome d nodes (tour.getLastD default) visited hex
      obtain ⟨hndmem, hndvis⟩ := findNearest_some d nodes (tour.getLastD default) visited nd hndeq
      have hred : nnLoop d nodes (fuel + 1) tour visited
          = nnLoop d nodes fuel (tour ++ [nd.1]) (insert nd.1.id visited) := by
        show (if tour.length < nodes.length then
            match findNearest d nodes (tour.getLastD default) visited with
            | some nd => nnLoop d nodes fuel (tour ++ [nd.1]) (insert nd.1.id visited)
            | none => nnLoop d nodes fuel tour visited
          else tour) = _
        rw [if_pos hlt, hndeq]
      rw [hred]
      have hvis' : insert nd.1.id visited = ((tour ++ [nd.1]).map fun v => v.id).toFinset := by
        rw [hvis]
        simp [List.toFinset_append, Finset.insert_eq, Finset.union_comm]
      have hnd' : ((tour ++ [nd.1]).map fun v => v.id).Nodup := by
        rw [List.map_append, List.nodup_append]
        refine ⟨hnd, by simp, ?_⟩
        intro x hx
        simp only [List.map_cons, List.map_nil, List.mem_cons, List.not_mem_nil,
          or_false]
        intro heq
        apply hndvis
        rw [hvis, ← heq]
        exact List.mem_toFinset.mpr hx
      have hmem' : ∀ x ∈ tour ++ [nd.1], x ∈ nodes := by
        intro x hx
        rcases List.mem_append.mp hx with h | h
        · exact hmem x h
        · simp only [List.mem_cons, List.not_mem_nil, or_false] at h
          rw [h]
          exact hndmem
      have hlen' : nodes.length ≤ (tour ++ [nd.1]).length + fuel := by
        simp only [List.length_append, List.length_cons, List.length_nil]
        omega
      exact ih (tour ++ [nd.1]) (insert nd.1.id visited) hvis' hnd' hmem' hlen'
    · have hred : nnLoop d nodes (fuel + 1) tour visited = tour := by
        show (if tour.length < nodes.length then
            match findNearest d nodes (tour.getLastD default) visited with
            | some nd => nnLoop d nodes fuel (tour ++ [nd.1]) (insert nd.1.id visited)
            | none => nnLoop d nodes fuel tour visited
          else tour) = _
        rw [if_neg hlt]
      rw [hred]
      have hle := tour_length_le nodes tour hnd hmem
      exact ⟨by omega, hmem, hnd⟩

theorem nearestNeighbor_ok (d : Node → Node → ℚ) (r : ℕ) (nodes : List Node)
    (hne : nodes ≠ []) (hnodup : (nodes.map fun v => v.id).Nodup) :
    ∃ t, nearestNeighbor d r nodes = Except.ok t ∧ t.Perm nodes := by
  match nodes, hne with
  | n0 :: ns, _ =>
    set nodes := n0 :: ns with hnodes
    have hpos : 0 < nodes.length := by simp [hnodes]
    have hstart : nodes.getD (r % nodes.length) default ∈ nodes := by
      have hin : r % nodes.length < nodes.length := Nat.mod_lt r hpos
      rw [List.getD_eq_getElem _ _ hin]
      exact List.getElem_mem hin
    set startNode := nodes.getD (r % nodes.length) default with hsn
    have hinv := nnLoop_complete d nodes hnodup nodes.length [startNode]
      {startNode.id} (by simp) (by simp) (by
        intro x hx
        simp only [List.mem_cons, List.not_mem_nil, or_false] at hx
        rw [hx]
        exact hstart) (by simp)
    obtain ⟨hlen, hmem, hnd⟩ := hinv
    refine ⟨nnLoop d nodes nodes.length [startNode] {startNode.id}, rfl, ?_⟩
    have hnodupt : (nnLoop d nodes nodes.length [startNode] {startNode.id}).Nodup :=
      List.Nodup.of_map _ hnd
    have hsubp := List.subperm_of_subset hnodupt
      (fun x hx => hmem x hx)
    exact hsubp.perm_of_length_le (by omega)

/-- C7 counterexample: on the empty point list `nearestNeighbor` does not
return an empty tour; it throws a `TypeError` (reading `.id` of the
`undefined` start node picked from the empty array). -/
theorem claim_C7_counterexample :
    nearestNeighbor axisDist 0 []
      = Except.error "TypeError: Cannot read properties of undefined (reading id)"
    ∧ nearestNeighbor axisDist 0 [] ≠ Except.ok [] :=
  ⟨rfl, by simp [nearestNeighbor]⟩

/-- C7, amended: on an empty point list `nearestNeighbor` fails with a
`TypeError` (it does not return an empty tour); on every non-empty point
list with pairwise distinct ids it succeeds and returns a complete tour — a
permutation of the input — so no non-empty input degenerates. -/
theorem claim_C7 (d : Node → Node → ℚ) (r : ℕ) (nodes : List Node)
    (hne : nodes ≠ []) (hnodup : (nodes.map fun v => v.id).Nodup) :
    nearestNeighbor d r []
      = Except.error "TypeError: Cannot read properties of undefined (reading id)"
    ∧ ∃ t, nearestNeighbor d r nodes = Except.ok t ∧ t.Perm nodes :=
  ⟨rfl, nearestNeighbor_ok d r nodes hne hnodup⟩

/-- Witness for C7 at the concrete input `pts3`. -/
theorem claim_C7_witness :
    pts3 ≠ [] ∧ (pts3.map fun v => v.id).Nodup
    ∧ (nearestNeighbor axisDist 0 []
        = Except.error "TypeError: Cannot read properties of undefined (reading id)"
      ∧ ∃ t, nearestNeighbor axisDist 0 pts3 = Except.ok t ∧ t.Perm pts3) :=
  ⟨by decide, by decide, claim_C7 axisDist 0 pts3 (by decide) (by decide)⟩

/-! ### Ant Colony Optimization (the `antColony` draft) -/

/-- Embeds the roulette loop of `chooseNextNode`: iterate over the unvisited
nodes in insertion order while accumulating `cumulative += normalized[index++]`
and return the first node at which `r <= cumulative`.  When `index` runs past
the end of `normalized` (which happens exactly when some unvisited node was
skipped for having distance 0), the JavaScript accumulator becomes `NaN` and
every later comparison is false; the `Option ℚ` accumulator models this with
`none`. -/
def selectLoop : List ℕ → List ℚ → ℕ → Option ℚ → ℚ → Option ℕ
  | [], _, _, _, _ => none
  | nd :: rest, normalized, index, cum, r =>
    match cum, normalized[index]? with
    | some c, some p =>
      if r ≤ c + p then some nd
      else selectLoop rest normalized (index + 1) (some (c + p)) r
    | _, _ => selectLoop rest normalized (index + 1) none r

/-- Embeds `chooseNextNode` of the `antColony` draft: unvisited nodes at
distance 0 from the current node are skipped when building the probability
list; each remaining candidate gets weight
`pheromones[current][node]^alpha * (1/distance)^beta` (`Math.pow` is passed
in as `jspow`); if the weights sum to 0 the first unvisited node is
returned, otherwise a roulette selection over the normalized weights is
performed with the draw `r`, falling back to the first unvisited node on
rounding shortfall. -/
def chooseNextNode (pher dist : ℕ → ℕ → ℚ) (alpha beta : ℚ)
    (jspow : ℚ → ℚ → ℚ) (current : ℕ) (unvisited : List ℕ) (r : ℚ) : ℕ :=
  let probs := (unvisited.filter fun nd => decide (¬ dist current nd = 0)).map
    fun nd => jspow (pher current nd) alpha * jspow (1 / dist current nd) beta
  let sum := probs.sum
  if sum = 0 then unvisited.headD 0
  else
    let normalized := probs.map fun p => p / sum
    match selectLoop unvisited normalized 0 (some 0) r with
    | some nd => nd
    | none => unvisited.headD 0

theorem selectLoop_mem :
    ∀ (unv : List ℕ) (normalized : List ℚ) (index : ℕ) (cum : Option ℚ) (r : ℚ)
      (nd : ℕ), selectLoop unv normalized index cum r = some nd → nd ∈ unv := by
  intro unv
  induction unv with
  | nil => intro normalized index cum r nd h; exact absurd h (by simp [selectLoop])
  | cons x rest ih =>
    intro normalized index cum r nd h
    unfold selectLoop at h
    match cum, hn : normalized[index]? with
    | some c, some p =>
      rw [hn] at h
      simp only at h
      by_cases hr : r ≤ c + p
      · rw [if_pos hr] at h
        simp only [Option.some.injEq] at h
        rw [← h]
        exact List.mem_cons_self x rest
      · rw [if_neg hr] at h
        exact List.mem_cons_of_mem x (ih _ _ _ _ _ h)
    | some c, none =>
      rw [hn] at h
      exact List.mem_cons_of_mem x (ih _ _ _ _ _ h)
    | none, some p =>
      rw [hn] at h
      exact List.mem_cons_of_mem x (ih _ _ _ _ _ h)
    | none, none =>
      rw [hn] at h
      exact List.mem_cons_of_mem x (ih _ _ _ _ _ h)

theorem headD_mem {α : Type} (l : List α) (a : α) (h : l ≠ []) :
    l.headD a ∈ l := by
  match l, h with
  | x :: rest, _ => exact List.mem_cons_self x rest

theorem chooseNextNode_mem (pher dist : ℕ → ℕ → ℚ) (alpha beta : ℚ)
    (jspow : ℚ → ℚ → ℚ) (current : ℕ) (unvisited : List ℕ) (r : ℚ)
    (h : unvisited ≠ []) :
    chooseNextNode pher dist alpha beta jspow current unvisited r ∈ unvisited := by
  unfold chooseNextNode
  simp only []
  split
  · exact headD_mem unvisited 0 h
  · match hs : selectLoop unvisited
        (((unvisited.filter fun nd => decide (¬ dist current nd = 0)).map
          fun nd => jspow (pher current nd) alpha * jspow (1 / dist current nd) beta).map
          fun p => p / ((unvisited.filter fun nd => decide (¬ dist current nd = 0)).map
            fun nd => jspow (pher current nd) alpha * jspow (1 / dist current nd) beta).sum)
        0 (some 0) r with
    | some nd => exact selectLoop_mem _ _ _ _ _ _ hs
    | none => exact headD_mem unvisited 0 h

/-- Embeds the tour-construction loop of one ant
(`while (unvisited.size > 0) { ... }`): repeatedly choose the next index via
`chooseNextNode` with the per-step draw `rc step`, append it and delete it
from the unvisited set (a JavaScript `Set` iterates in insertion order, so it
is modelled as a list with deletion of the first occurrence).  The fuel is
the initial number of unvisited nodes; since `chooseNextNode` always returns
an unvisited node, each round removes exactly one node and the fuel never
runs out before the set is empty. -/
def antTourAux (pher dist : ℕ → ℕ → ℚ) (alpha beta : ℚ) (jspow : ℚ → ℚ → ℚ)
    (rc : ℕ → ℚ) : ℕ → ℕ → List ℕ → ℕ → List ℕ
  | 0, _, _, _ => []
  | fuel + 1, cur, unv, step =>
    if unv = [] then []
    else
      let nxt := chooseNextNode pher dist alpha beta jspow cur unv (rc step)
      nxt :: antTourAux pher dist alpha beta jspow rc fuel nxt (unv.erase nxt) (step + 1)

/-- Embeds one ant's full index path in `antColony`: start at the random
index `startIdx` (already deleted from the unvisited set, which starts as
`[0, …, n−1]`) and extend with `antTourAux`. -/
def antTourIndices (pher dist : ℕ → ℕ → ℚ) (alpha beta : ℚ)
    (jspow : ℚ → ℚ → ℚ) (rc : ℕ → ℚ) (n startIdx : ℕ) : List ℕ :=
  startIdx :: antTourAux pher dist alpha beta jspow rc n startIdx
    ((List.range n).erase startIdx) 0

theorem antTourAux_perm (pher dist : ℕ → ℕ → ℚ) (alpha beta : ℚ)
    (jspow : ℚ → ℚ → ℚ) (rc : ℕ → ℚ) :
    ∀ (fuel cur : ℕ) (unv : List ℕ) (step : ℕ), unv.length ≤ fuel →
      (antTourAux pher dist alpha beta jspow rc fuel cur unv step).Perm unv := by
  intro fuel
  induction fuel with
  | zero =>
    intro cur unv step hlen
    have : unv = [] := List.length_eq_zero.mp (Nat.le_zero.mp hlen)
    rw [this]
    exact List.Perm.refl _
  | succ fuel ih =>
    intro cur unv step hlen
    by_cases hunv : unv = []
    · rw [hunv]
      show (if ([] : List ℕ) = [] then [] else _).Perm []
      rw [if_pos rfl]
    · have hred : antTourAux pher dist alpha beta jspow rc (fuel + 1) cur unv step
          = chooseNextNode pher dist alpha beta jspow cur unv (rc step)
            :: antTourAux pher dist alpha beta jspow rc fuel
              (chooseNextNode pher dist alpha beta jspow cur unv (rc step))
              (unv.erase (chooseNextNode pher dist alpha beta jspow cur unv (rc step)))
              (step + 1) := by
        show (if unv = [] then [] else _) = _
        rw [if_neg hunv]
      rw [hred]
      set nxt := chooseNextNode pher dist alpha beta jspow cur unv (rc step) with hnxt
      have hmem : nxt ∈ unv := chooseNextNode_mem pher dist alpha beta jspow cur unv
        (rc step) hunv
      have hlen' : (unv.erase nxt).length ≤ fuel := by
        rw [List.length_erase_of_mem hmem]
        have : 0 < unv.length := List.length_pos.mpr hunv
        omega
      have haux := ih nxt (unv.erase nxt) (step + 1) hlen'
      exact ((haux.cons nxt).trans (List.perm_cons_erase hmem).symm)

theorem antTourIndices_perm (pher dist : ℕ → ℕ → ℚ) (alpha beta : ℚ)
    (jspow : ℚ → ℚ → ℚ) (rc : ℕ → ℚ) (n startIdx : ℕ) (hstart : startIdx < n) :
    (antTourIndices pher dist alpha beta jspow rc n startIdx).Perm (List.range n) := by
  unfold antTourIndices
  have hmem : startIdx ∈ List.range n := List.mem_range.mpr hstart
  have hlen : ((List.range n).erase startIdx).length ≤ n := by
    rw [List.length_erase_of_mem hmem, List.length_range]
    omega
  have haux := antTourAux_perm pher dist alpha beta jspow rc n startIdx
    ((List.range n).erase startIdx) 0 hlen
  exact ((haux.cons startIdx).trans (List.perm_cons_erase hmem).symm)

/-- Reading a list back through position lookups is the identity; used to
convert an ant's index path to its node tour. -/
theorem map_getD_range (nodes : List Node) :
    (List.range nodes.length).map (fun i => nodes.getD i default) = nodes := by
  apply List.ext_getElem
  · simp
  · intro n h1 h2
    simp only [List.getElem_map, List.getElem_range]
    exact List.getD_eq_getElem nodes default h2

/-- C10: for every non-empty unvisited set, `chooseNextNode` returns an
element of the unvisited set in every branch (probabilistic selection,
zero-sum fallback and rounding fallback); consequently each ant's
tour-construction loop removes exactly one node per step and produces a
complete tour: the index path visits every index in `[0, n)` exactly once
(it is a permutation of `range n`), so it never indexes out of range.  This
holds for all pheromone and distance matrices, all `alpha`, `beta` and
`Math.pow` behaviours, and all random draws. -/
theorem claim_C10 (pher dist : ℕ → ℕ → ℚ) (alpha beta : ℚ)
    (jspow : ℚ → ℚ → ℚ) (current : ℕ) (unvisited : List ℕ) (r : ℚ)
    (rc : ℕ → ℚ) (n startIdx : ℕ)
    (hunv : unvisited ≠ []) (hstart : startIdx < n) :
    chooseNextNode pher dist alpha beta jspow current unvisited r ∈ unvisited
    ∧ (antTourIndices pher dist alpha beta jspow rc n startIdx).Perm (List.range n) :=
  ⟨chooseNextNode_mem pher dist alpha beta jspow current unvisited r hunv,
    antTourIndices_perm pher dist alpha beta jspow rc n startIdx hstart⟩

/-- Witness for C10: a concrete pheromone/distance configuration on three
nodes, with a zero-distance candidate exercising the skip guard. -/
theorem claim_C10_witness :
    ([1, 2] : List ℕ) ≠ [] ∧ 0 < 3
    ∧ (chooseNextNode (fun _ _ => 1) (fun i j => if i = j then 0 else 1) 1 5
        (fun a _ => a) 0 [1, 2] (1/2) ∈ ([1, 2] : List ℕ)
      ∧ (antTourIndices (fun _ _ => 1) (fun i j => if i = j then 0 else 1) 1 5
          (fun a _ => a) (fun _ => 1/2) 3 0).Perm (List.range 3)) :=
  ⟨by decide, by decide,
    claim_C10 (fun _ _ => 1) (fun i j => if i = j then 0 else 1) 1 5
      (fun a _ => a) 0 [1, 2] (1/2) (fun _ => 1/2) 3 0 (by decide) (by decide)⟩

/-- Configuration and randomness environment of an `antColony` run: the
numeric knobs of the source, JavaScript's `Math.pow` as an abstract
function, and the random draws (`rstart g k` for ant `k`'s starting index in
generation `g`; `rchoice g k step` for its roulette draws). -/
structure AntEnv where
  iterations : ℤ
  ants : ℤ
  alpha : ℚ
  beta : ℚ
  evaporation : ℚ
  Q : ℚ
  jspow : ℚ → ℚ → ℚ
  rstart : ℕ → ℕ → ℕ
  rchoice : ℕ → ℕ → ℕ → ℚ

/-- The precomputed pairwise distance matrix of `antColony`:
`distances[i][j] = calculateEuclideanDistance(nodes[i], nodes[j])`. -/
def antDistM (d : Node → Node → ℚ) (nodes : List Node) : ℕ → ℕ → ℚ :=
  fun i j => d (nodes.getD i default) (nodes.getD j default)

/-- One ant's node tour in generation `g`: the index path converted through
`tsp.nodes[idx]`. -/
def antBuildTour (d : Node → Node → ℚ) (env : AntEnv) (nodes : List Node)
    (pher : ℕ → ℕ → ℚ) (g k : ℕ) : List Node :=
  (antTourIndices pher (antDistM d nodes) env.alpha env.beta env.jspow
    (env.rchoice g k) nodes.length (env.rstart g k % nodes.length)).map
    fun idx => nodes.getD idx default

/-- Search state of `antColony`: the pheromone matrix and the incumbent
global best path with its distance. -/
structure AntState where
  pheromones : ℕ → ℕ → ℚ
  bestPath : List Node
  bestDistance : ℚ

/-- Embeds the symmetric pheromone deposit for one edge of the best path:
look up both endpoints by identity in `tsp.nodes` (`indexOf`; "not found" is
modelled as an out-of-range index) and, when both are found, add the deposit
amount to both directions sequentially. -/
def depositOne (nodes : List Node) (amt : ℚ) (p : ℕ → ℕ → ℚ)
    (edge : Node × Node) : ℕ → ℕ → ℚ :=
  let fi := nodes.indexOf edge.1
  let ti := nodes.indexOf edge.2
  if fi < nodes.length ∧ ti < nodes.length then
    let p1 : ℕ → ℕ → ℚ := fun a b => if a = fi ∧ b = ti then p a b + amt else p a b
    fun a b => if a = ti ∧ b = fi then p1 a b + amt else p1 a b
  else p

/-- Embeds the deposit loop over all wrap-around edges of the best path. -/
def depositPhase (nodes : List Node) (amt : ℚ) (path : List Node)
    (p : ℕ → ℕ → ℚ) : ℕ → ℕ → ℚ :=
  (List.range path.length).foldl
    (fun p i => depositOne nodes amt p
      (path.getD i default, path.getD ((i + 1) % path.length) default))
    p

/-- Embeds one generation of `antColony`: every ant builds a tour and the
global best is updated on strict improvement; then all pheromones evaporate
by the factor `1 − evaporation`; then the global best path is improved by
exhaustive 2-opt and adopted if strictly better; finally `Q / bestDistance`
is deposited symmetrically along every edge of the (possibly optimized)
best path. -/
def antGenStep (d : Node → Node → ℚ) (env : AntEnv) (nodes : List Node)
    (g : ℕ) (s : AntState) : AntState :=
  let ab := (List.range env.ants.toNat).foldl
    (fun st k =>
      let tour := antBuildTour d env nodes s.pheromones g k
      let len := calculateTourDistance d tour
      if len < st.2 then (tour, len) else st)
    (s.bestPath, s.bestDistance)
  let ph1 : ℕ → ℕ → ℚ := fun i j => s.pheromones i j * (1 - env.evaporation)
  let opt := twoOptSwapWithBestImprovement d ab.1
  let optDist := calculateTourDistance d opt
  let best2 := if optDist < ab.2 then (opt, optDist) else ab
  { pheromones := depositPhase nodes (env.Q / best2.2) best2.1 ph1
    bestPath := best2.1
    bestDistance := best2.2 }

/-- The `antColony` state after `g` generations, starting from the
nearest-neighbour warm start and the uniform pheromone matrix 1. -/
def antStateAt (d : Node → Node → ℚ) (env : AntEnv) (nodes : List Node)
    (initialTour : List Node) : ℕ → AntState
  | 0 =>
    { pheromones := fun _ _ => 1
      bestPath := initialTour
      bestDistance := calculateTourDistance d initialTour }
  | g + 1 => antGenStep d env nodes g (antStateAt d env nodes initialTour g)

/-- Embeds `antColony`: nearest-neighbour warm start (the random start draw
is `rnn`; on an empty input the constructor throws), `iterations`
generations, result `(bestPath, bestDistance, initialDistance)`.  The
elapsed-time field is real time and is not modelled.  The source performs no
validation of `iterations` or `ants`. -/
def antColony (d : Node → Node → ℚ) (env : AntEnv) (rnn : ℕ)
    (nodes : List Node) : Except String (List Node × ℚ × ℚ) :=
  match nearestNeighbor d rnn nodes with
  | .error e => .error e
  | .ok initialTour =>
    let s := antStateAt d env nodes initialTour env.iterations.toNat
    .ok (s.bestPath, s.bestDistance, calculateTourDistance d initialTour)

theorem antBuildTour_perm (d : Node → Node → ℚ) (env : AntEnv)
    (nodes : List Node) (pher : ℕ → ℕ → ℚ) (g k : ℕ) (hne : nodes ≠ []) :
    (antBuildTour d env nodes pher g k).Perm nodes := by
  unfold antBuildTour
  have hpos : 0 < nodes.length := List.length_pos.mpr hne
  have hperm := antTourIndices_perm pher (antDistM d nodes) env.alpha env.beta
    env.jspow (env.rchoice g k) nodes.length (env.rstart g k % nodes.length)
    (Nat.mod_lt _ hpos)
  have := hperm.map fun idx => nodes.getD idx default
  rw [map_getD_range nodes] at this
  exact this

theorem antsFold_inv (d : Node → Node → ℚ) (env : AntEnv) (nodes : List Node)
    (pher : ℕ → ℕ → ℚ) (g : ℕ) (init : List Node × ℚ) (hne : nodes ≠ [])
    (hp : init.1.Perm nodes) (hd : init.2 = calculateTourDistance d init.1) :
    let r := (List.range env.ants.toNat).foldl
      (fun st k =>
        let tour := antBuildTour d env nodes pher g k
        let len := calculateTourDistance d tour
        if len < st.2 then (tour, len) else st)
      init
    r.1.Perm nodes ∧ r.2 = calculateTourDistance d r.1 ∧ r.2 ≤ init.2 := by
  refine List.foldlRecOn
    (motive := fun st => st.1.Perm nodes ∧ st.2 = calculateTourDistance d st.1
      ∧ st.2 ≤ init.2)
    (List.range env.ants.toNat) _ init ⟨hp, hd, le_refl _⟩ ?_
  intro st hst k hk
  by_cases hlt : calculateTourDistance d (antBuildTour d env nodes pher g k) < st.2
  · simp only [hlt, if_pos]
    exact ⟨antBuildTour_perm d env nodes pher g k hne, trivial,
      le_of_lt (lt_of_lt_of_le hlt hst.2.2)⟩
  · simp only [hlt, if_neg, not_false_iff]
    exact hst

theorem antGenStep_inv (d : Node → Node → ℚ) (env : AntEnv) (nodes : List Node)
    (g : ℕ) (s : AntState) (hne : nodes ≠ []) (hp : s.bestPath.Perm nodes)
    (hd : s.bestDistance = calculateTourDistance d s.bestPath) :
    (antGenStep d env nodes g s).bestPath.Perm nodes
    ∧ (antGenStep d env nodes g s).bestDistance
        = calculateTourDistance d (antGenStep d env nodes g s).bestPath
    ∧ (antGenStep d env nodes g s).bestDistance ≤ s.bestDistance := by
  obtain ⟨hab1, hab2, hab3⟩ := antsFold_inv d env nodes s.pheromones g
    (s.bestPath, s.bestDistance) hne hp hd
  unfold antGenStep
  set ab := (List.range env.ants.toNat).foldl
    (fun st k =>
      let tour := antBuildTour d env nodes s.pheromones g k
      let len := calculateTourDistance d tour
      if len < st.2 then (tour, len) else st)
    (s.bestPath, s.bestDistance) with hab
  by_cases hlt : calculateTourDistance d (twoOptSwapWithBestImprovement d ab.1) < ab.2
  · simp only [hlt, if_pos]
    refine ⟨?_, trivial, le_of_lt (lt_of_lt_of_le hlt hab3)⟩
    exact (twoOptLoop_perm d _ ab.1).trans hab1
  · simp only [hlt, if_neg, not_false_iff]
    exact ⟨hab1, hab2, hab3⟩

theorem antStateAt_inv (d : Node → Node → ℚ) (env : AntEnv) (nodes : List Node)
    (initialTour : List Node) (hne : nodes ≠ []) (hinit : initialTour.Perm nodes) :
    ∀ g : ℕ,
      (antStateAt d env nodes initialTour g).bestPath.Perm nodes
      ∧ (antStateAt d env nodes initialTour g).bestDistance
          = calculateTourDistance d (antStateAt d env nodes initialTour g).bestPath
      ∧ (antStateAt d env nodes initialTour g).bestDistance
          ≤ calculateTourDistance d initialTour := by
  intro g
  induction g with
  | zero => exact ⟨hinit, rfl, le_refl _⟩
  | succ g ih =>
    obtain ⟨hp, hd, hmono⟩ := ih
    obtain ⟨hp', hd', hle⟩ := antGenStep_inv d env nodes g
      (antStateAt d env nodes initialTour g) hne hp hd
    exact ⟨hp', hd', le_trans hle hmono⟩

theorem depositOne_nonneg (nodes : List Node) (amt : ℚ) (p : ℕ → ℕ → ℚ)
    (edge : Node × Node) (hp : ∀ i j, 0 ≤ p i j) (hamt : 0 ≤ amt) :
    ∀ i j, 0 ≤ depositOne nodes amt p edge i j := by
  intro i j
  unfold depositOne
  split
  · simp only []
    split
    · split
      · have := hp i j
        linarith
      · have := hp i j
        linarith
    · split
      · have := hp i j
        linarith
      · exact hp i j
  · exact hp i j

theorem depositPhase_nonneg (nodes : List Node) (amt : ℚ) (path : List Node)
    (p : ℕ → ℕ → ℚ) (hp : ∀ i j, 0 ≤ p i j) (hamt : 0 ≤ amt) :
    ∀ i j, 0 ≤ depositPhase nodes amt path p i j := by
  unfold depositPhase
  refine List.foldlRecOn (motive := fun q => ∀ i j, 0 ≤ q i j)
    (List.range path.length) _ p hp ?_
  intro q hq e he
  exact depositOne_nonneg nodes amt q _ hq hamt

theorem antGenStep_pheromones (d : Node → Node → ℚ) (env : AntEnv)
    (nodes : List Node) (g : ℕ) (s : AntState) :
    (antGenStep d env nodes g s).pheromones
      = depositPhase nodes (env.Q / (antGenStep d env nodes g s).bestDistance)
        (antGenStep d env nodes g s).bestPath
        (fun i j => s.pheromones i j * (1 - env.evaporation)) := rfl

theorem antStateAt_pher_nonneg (d : Node → Node → ℚ) (env : AntEnv)
    (nodes : List Node) (initialTour : List Node) (hne : nodes ≠ [])
    (hinit : initialTour.Perm nodes) (hevap : env.evaporation ≤ 1)
    (hQ : 0 ≤ env.Q)
    (hpos : ∀ t : List Node, t.Perm nodes → 0 < calculateTourDistance d t) :
    ∀ (g : ℕ) (i j : ℕ), 0 ≤ (antStateAt d env nodes initialTour g).pheromones i j := by
  intro g
  induction g with
  | zero => intro i j; exact zero_le_one
  | succ g ih =>
    obtain ⟨hp', hd', _⟩ := antStateAt_inv d env nodes initialTour hne hinit (g + 1)
    have hbdpos : 0 < (antStateAt d env nodes initialTour (g + 1)).bestDistance := by
      rw [hd']
      exact hpos _ hp'
    have hamt : 0 ≤ env.Q / (antStateAt d env nodes initialTour (g + 1)).bestDistance :=
      div_nonneg hQ (le_of_lt hbdpos)
    have hph1 : ∀ i j, 0 ≤ (antStateAt d env nodes initialTour g).pheromones i j
        * (1 - env.evaporation) := by
      intro i j
      exact mul_nonneg (ih i j) (by linarith)
    show ∀ i j, 0 ≤ (antGenStep d env nodes g (antStateAt d env nodes initialTour g)).pheromones i j
    rw [antGenStep_pheromones]
    exact depositPhase_nonneg nodes _ _ _ hph1 hamt

/-- C8: in `antColony`, for every evaporation rate in [0, 1), every Q ≥ 0
and every input whose tours all have positive distance (an input has
positive best-tour distance exactly when every tour — every permutation —
has positive distance, since no tour is shorter than the best one), all
pheromone matrix entries start at the uniform value 1 and remain ≥ 0 after
any number of evaporate/deposit generations.  `initialTour` is `antColony`'s
nearest-neighbour warm start, which is always a permutation of the input
(`nearestNeighbor_ok`); the theorem holds for every such start. -/
theorem claim_C8 (d : Node → Node → ℚ) (env : AntEnv)
    (nodes initialTour : List Node) (g i j : ℕ)
    (hne : nodes ≠ [])
    (hinit : initialTour.Perm nodes)
    (_hevap0 : 0 ≤ env.evaporation) (hevap1 : env.evaporation < 1)
    (hQ : 0 ≤ env.Q)
    (hpos : ∀ t : List Node, t.Perm nodes → 0 < calculateTourDistance d t) :
    (antStateAt d env nodes initialTour 0).pheromones i j = 1
    ∧ 0 ≤ (antStateAt d env nodes initialTour g).pheromones i j :=
  ⟨rfl, antStateAt_pher_nonneg d env nodes initialTour hne hinit
    (le_of_lt hevap1) hQ hpos g i j⟩

/-- Concrete `antColony` environment used by witnesses: integer-valued
knobs, `Math.pow` collapsed to its first argument, fixed random draws. -/
def wEnv : AntEnv :=
  { iterations := 2
    ants := 2
    alpha := 1
    beta := 5
    evaporation := 0
    Q := 100
    jspow := fun a _ => a
    rstart := fun _ _ => 0
    rchoice := fun _ _ _ => 0 }

/-- Variant of `wEnv` with a non-positive iteration count, exercising the
degenerate-configuration behaviour of `antColony`. -/
def wEnv0 : AntEnv :=
  { wEnv with iterations := 0 }

/-- Open-path distances are nonnegative along a duplicate-free path over
points whose pairwise distances are positive. -/
theorem pathDist_nonneg (d : Node → Node → ℚ) (nodes : List Node)
    (hd : ∀ a ∈ nodes, ∀ b ∈ nodes, a ≠ b → 0 < d a b) :
    ∀ (rest : List Node) (a : Node), a ∈ nodes → (∀ x ∈ rest, x ∈ nodes) →
      (a :: rest).Nodup → 0 ≤ calculateTourDistance.pathDist d a rest := by
  intro rest
  induction rest with
  | nil => intro a _ _ _; exact le_refl _
  | cons b rest ih =>
    intro a ha hmem hnd
    have hb : b ∈ nodes := hmem b (List.mem_cons_self b rest)
    have hab : a ≠ b := by
      intro h
      rw [h] at hnd
      exact (List.nodup_cons.mp hnd).1 (List.mem_cons_self b rest)
    have h1 : 0 < d a b := hd a ha b hb hab
    have h2 : 0 ≤ calculateTourDistance.pathDist d b rest :=
      ih b hb (fun x hx => hmem x (List.mem_cons_of_mem b hx)) (List.Nodup.of_cons hnd)
    show 0 ≤ d a b + calculateTourDistance.pathDist d b rest
    linarith

/-- Every permutation tour over at least two pairwise-distinct points at
positive pairwise distances has positive closed-tour length. -/
theorem tourDistance_pos (d : Node → Node → ℚ) (nodes : List Node)
    (hnodup : nodes.Nodup) (h2 : 2 ≤ nodes.length)
    (hd : ∀ a ∈ nodes, ∀ b ∈ nodes, a ≠ b → 0 < d a b) :
    ∀ t : List Node, t.Perm nodes → 0 < calculateTourDistance d t := by
  intro t hperm
  have htnd : t.Nodup := hperm.nodup_iff.mpr hnodup
  have htmem : ∀ x ∈ t, x ∈ nodes := fun x hx => hperm.mem_iff.mp hx
  have hlen : 2 ≤ t.length := hperm.length_eq ▸ h2
  match t, htnd, htmem, hlen with
  | a :: b :: rest, htnd, htmem, _ =>
    have ha : a ∈ nodes := htmem a (by simp)
    have hbmem : ∀ x ∈ b :: rest, x ∈ nodes :=
      fun x hx => htmem x (List.mem_cons_of_mem a hx)
    have hpath : 0 ≤ calculateTourDistance.pathDist d b rest := by
      have hnd' : (b :: rest).Nodup := List.Nodup.of_cons htnd
      exact pathDist_nonneg d nodes hd rest b (hbmem b (by simp))
        (fun x hx => hbmem x (List.mem_cons_of_mem b hx)) hnd'
    have hlast : (b :: rest).getLastD a ∈ b :: rest := by
      rw [List.getLastD_eq_getLast?]
      rw [List.getLast?_eq_getLast (b :: rest) (by simp)]
      simp only [Option.getD_some]
      exact List.getLast_mem _
    have hlastne : (b :: rest).getLastD a ≠ a := by
      intro h
      have := (List.nodup_cons.mp htnd).1
      rw [← h] at this
      exact this hlast
    have hwrap : 0 < d ((b :: rest).getLastD a) a :=
      hd _ (hbmem _ hlast) a ha hlastne
    have hfirst : 0 < d a b := by
      refine hd a ha b (hbmem b (by simp)) ?_
      intro h
      rw [h] at htnd
      exact (List.nodup_cons.mp htnd).1 (List.mem_cons_self b rest)
    show 0 < (d a b + calculateTourDistance.pathDist d b rest)
        + d ((b :: rest).getLastD a) a
    linarith

/-- The three collinear witness points are pairwise at positive distance. -/
theorem pts3_pairs_pos :
    ∀ a ∈ pts3, ∀ b ∈ pts3, a ≠ b → 0 < axisDist a b := by
  intro a ha b hb hne
  simp only [pts3, List.mem_cons, List.not_mem_nil, or_false] at ha hb
  rcases ha with rfl | rfl | rfl <;> rcases hb with rfl | rfl | rfl <;>
    first
      | exact absurd rfl hne
      | norm_num [axisDist]

/-- Every closed tour over the three witness points has positive length. -/
theorem pts3_perm_pos :
    ∀ t : List Node, t.Perm pts3 → 0 < calculateTourDistance axisDist t :=
  tourDistance_pos axisDist pts3 (by decide) (by decide) pts3_pairs_pos

/-- Witness for C8 on `pts3` after one generation. -/
theorem claim_C8_witness :
    pts3 ≠ []
    ∧ pts3.Perm pts3
    ∧ (0 : ℚ) ≤ wEnv.evaporation ∧ wEnv.evaporation < 1 ∧ (0 : ℚ) ≤ wEnv.Q
    ∧ (∀ t : List Node, t.Perm pts3 → 0 < calculateTourDistance axisDist t)
    ∧ ((antStateAt axisDist wEnv pts3 pts3 0).pheromones 0 1 = 1
      ∧ 0 ≤ (antStateAt axisDist wEnv pts3 pts3 1).pheromones 0 1) :=
  ⟨by simp [pts3], List.Perm.refl pts3, by norm_num [wEnv], by norm_num [wEnv],
    by norm_num [wEnv], pts3_perm_pos,
    claim_C8 axisDist wEnv pts3 pts3 1 0 1 (by simp [pts3]) (List.Perm.refl pts3)
      (by norm_num [wEnv]) (by norm_num [wEnv]) (by norm_num [wEnv]) pts3_perm_pos⟩

/-! ### Scatter Search (src/scatter.ts) -/

/-- The simultaneous swap `[arr[i], arr[j]] = [arr[j], arr[i]]` used by the
Fisher–Yates shuffle: both old values are read before the two writes. -/
def listSwap (l : List Node) (i j : ℕ) : List Node :=
  (l.set i (l.getD j default)).set j (l.getD i default)

theorem set_getElem_self_eq {α : Type} (l : List α) (i : ℕ) (h : i < l.length) :
    l.set i l[i] = l := by
  apply List.ext_getElem
  · simp
  · intro n h1 h2
    rw [List.getElem_set]
    split
    · rename_i heq; subst heq; rfl
    · rfl

theorem take_getElem_drop {α : Type} (l : List α) (i : ℕ) (h : i < l.length) :
    l.take i ++ l[i] :: l.drop (i + 1) = l := by
  have := List.set_eq_take_append_cons_drop (l := l) (n := i) (a := l[i])
  rw [if_pos h] at this
  rw [← this, set_getElem_self_eq l i h]

theorem listSwap_perm_lt (l : List Node) (i j : ℕ) (hij : i < j)
    (hj : j < l.length) : (listSwap l i j).Perm l := by
  have hi : i < l.length := lt_trans hij hj
  set A := l.take i with hA
  set B := (l.drop (i + 1)).take (j - i - 1) with hB
  set C := l.drop (j + 1) with hC
  have hlenA : A.length = i := by
    rw [hA, List.length_take]
    omega
  have hlenB : B.length = j - i - 1 := by
    rw [hB, List.length_take, List.length_drop]
    omega
  have hdropi : l.drop (i + 1) = B ++ (l.getD j default) :: C := by
    rw [List.getD_eq_getElem l default hj]
    have h1 : (l.drop (i + 1)).drop (j - i - 1) = l.drop j := by
      rw [List.drop_drop]
      congr 1
      omega
    have h2 : l.drop j = l[j] :: l.drop (j + 1) := List.drop_eq_getElem_cons hj
    rw [hB, hC]
    conv_lhs => rw [← List.take_append_drop (j - i - 1) (l.drop (i + 1))]
    rw [h1, h2]
  have hF : l = A ++ l[i] :: (B ++ (l.getD j default) :: C) := by
    rw [← hdropi, hA]
    exact (take_getElem_drop l i hi).symm
  have hset1 : l.set i (l.getD j default)
      = A ++ (l.getD j default) :: (B ++ (l.getD j default) :: C) := by
    have := List.set_eq_take_append_cons_drop (l := l) (n := i)
      (a := l.getD j default)
    rw [if_pos hi] at this
    rw [this, ← hA, ← hdropi]
  have hG : listSwap l i j = A ++ (l.getD j default) :: (B ++ (l.getD i default) :: C) := by
    unfold listSwap
    rw [hset1]
    have hlen1 : ((A ++ (l.getD j default) :: B)).length = j := by
      rw [List.length_append, List.length_cons, hlenA, hlenB]
      omega
    have hassoc : A ++ (l.getD j default) :: (B ++ (l.getD j default) :: C)
        = (A ++ (l.getD j default) :: B) ++ (l.getD j default) :: C := by
      simp [List.append_assoc]
    rw [hassoc]
    have hjlt : j < ((A ++ (l.getD j default) :: B) ++ (l.getD j default) :: C).length := by
      rw [List.length_append, hlen1]
      simp
    have := List.set_eq_take_append_cons_drop
      (l := (A ++ (l.getD j default) :: B) ++ (l.getD j default) :: C) (n := j)
      (a := l.getD i default)
    rw [if_pos hjlt] at this
    rw [this, List.take_left' hlen1]
    have hlen2 : ((A ++ (l.getD j default) :: B) ++ [l.getD j default]).length = j + 1 := by
      rw [List.length_append, hlen1]
      simp
    have hre : (A ++ (l.getD j default) :: B) ++ (l.getD j default) :: C
        = ((A ++ (l.getD j default) :: B) ++ [l.getD j default]) ++ C := by
      simp [List.append_assoc]
    rw [hre, List.drop_left' hlen2]
    simp [List.append_assoc]
  rw [hG]
  conv_rhs => rw [hF]
  refine List.Perm.append_left A ?_
  rw [List.getD_eq_getElem l default hj, List.getD_eq_getElem l default hi]
  exact (List.Perm.cons _ List.perm_middle).trans
    ((List.Perm.swap l[i] l[j] (B ++ C)).trans
      (List.Perm.cons _ List.perm_middle.symm))

theorem listSwap_perm (l : List Node) (i j : ℕ) (hi : i < l.length)
    (hj : j < l.length) : (listSwap l i j).Perm l := by
  rcases lt_trichotomy i j with h | h | h
  · exact listSwap_perm_lt l i j h hj
  · subst h
    unfold listSwap
    rw [List.set_set, List.getD_eq_getElem l default hi, set_getElem_self_eq l i hi]
  · have h1 := listSwap_perm_lt l j i h hi
    unfold listSwap at h1 ⊢
    have hswap : (l.set i (l.getD j default)).set j (l.getD i default)
        = (l.set j (l.getD i default)).set i (l.getD j default) := by
      apply List.ext_getElem
      · simp
      · intro n h1' h2'
        simp only [List.getElem_set]
        by_cases hji : j = n <;> by_cases hii : i = n
        · omega
        · simp [hji, hii]
        · simp [hji, hii]
        · simp [hji, hii]
    rw [hswap]
    exact h1

/-- Embeds the Fisher–Yates loop of `shuffle` (src/scatter.ts): for `i` from
`length − 1` down to 1, swap positions `i` and `j`, where
`j = Math.floor(Math.random() * (i + 1))`; the draw is supplied by the
stream `r`, reduced modulo `i + 1`. -/
def shuffleAux (r : ℕ → ℕ) : ℕ → List Node → List Node
  | 0, arr => arr
  | i + 1, arr => shuffleAux r i (listSwap arr (i + 1) (r (i + 1) % (i + 2)))

/-- Embeds `shuffle` (src/scatter.ts): a copy of the input permuted by the
Fisher–Yates loop. -/
def shuffle (r : ℕ → ℕ) (l : List Node) : List Node := shuffleAux r (l.length - 1) l

theorem shuffleAux_perm (r : ℕ → ℕ) :
    ∀ (i : ℕ) (arr : List Node), i < arr.length → (shuffleAux r i arr).Perm arr := by
  intro i
  induction i with
  | zero => intro arr _; exact List.Perm.refl arr
  | succ i ih =>
    intro arr hlt
    have hj : r (i + 1) % (i + 2) < arr.length :=
      lt_of_lt_of_le (Nat.mod_lt _ (by omega)) (by omega)
    have hswap := listSwap_perm arr (i + 1) (r (i + 1) % (i + 2)) hlt hj
    have hlen : (listSwap arr (i + 1) (r (i + 1) % (i + 2))).length = arr.length :=
      hswap.length_eq
    exact (ih _ (by omega)).trans hswap

theorem shuffle_perm (r : ℕ → ℕ) (l : List Node) : (shuffle r l).Perm l := by
  match l with
  | [] => exact List.Perm.refl _
  | a :: rest =>
    exact shuffleAux_perm r ((a :: rest).length - 1) (a :: rest) (by simp)

/-- Embeds the hole-skipping scan `while (child[idx]) idx++` of
`combineTours`: advance `idx` past filled slots; a read beyond the end of
the array is `undefined`, hence falsy, so the scan always stops by
`child.length`. -/
def firstFree (child : List (Option Node)) (idx : ℕ) : ℕ :=
  if h : (child.getD idx none).isSome then firstFree child (idx + 1) else idx
termination_by child.length - idx
decreasing_by
  have hidx : idx < child.length := by
    by_contra hge
    rw [List.getD_eq_default _ _ (by omega)] at h
    simp at h
  omega

theorem firstFree_spec (child : List (Option Node)) :
    ∀ (idx : ℕ), (∃ q, idx ≤ q ∧ q < child.length ∧ child.getD q none = none) →
      (∀ p, p < idx → (child.getD p none).isSome) →
      idx ≤ firstFree child idx ∧ firstFree child idx < child.length
      ∧ child.getD (firstFree child idx) none = none
      ∧ ∀ p, p < firstFree child idx → (child.getD p none).isSome := by
  have main : ∀ (fuel idx : ℕ), child.length - idx ≤ fuel →
      (∃ q, idx ≤ q ∧ q < child.length ∧ child.getD q none = none) →
      (∀ p, p < idx → (child.getD p none).isSome) →
      idx ≤ firstFree child idx ∧ firstFree child idx < child.length
      ∧ child.getD (firstFree child idx) none = none
      ∧ ∀ p, p < firstFree child idx → (child.getD p none).isSome := by
    intro fuel
    induction fuel with
    | zero =>
      intro idx hfuel hex hfill
      obtain ⟨q, hq1, hq2, _⟩ := hex
      omega
    | succ fuel ih =>
      intro idx hfuel hex hfill
      by_cases h : (child.getD idx none).isSome
      · have hred : firstFree child idx = firstFree child (idx + 1) := by
          rw [firstFree, dif_pos h]
        rw [hred]
        have hex' : ∃ q, idx + 1 ≤ q ∧ q < child.length ∧ child.getD q none = none := by
          obtain ⟨q, hq1, hq2, hq3⟩ := hex
          refine ⟨q, ?_, hq2, hq3⟩
          rcases Nat.eq_or_lt_of_le hq1 with rfl | h'
          · rw [hq3] at h
            simp at h
          · omega
        have hfill' : ∀ p, p < idx + 1 → (child.getD p none).isSome := by
          intro p hp
          rcases Nat.lt_succ_iff_lt_or_eq.mp hp with h' | rfl
          · exact hfill p h'
          · exact h
        obtain ⟨ha, hb, hc, hd⟩ := ih (idx + 1) (by omega) hex' hfill'
        exact ⟨by omega, hb, hc, hd⟩
      · have hred : firstFree child idx = idx := by
          rw [firstFree, dif_neg h]
        rw [hred]
        refine ⟨le_refl _, ?_, ?_, hfill⟩
        · obtain ⟨q, hq1, hq2, hq3⟩ := hex
          by_contra hge
          rw [List.getD_eq_default _ _ (by omega)] at h
          omega
        · match hg : child.getD idx none with
          | none => rfl
          | some v => rw [hg] at h; simp at h
  intro idx
  exact main (child.length - idx) idx (le_refl _)

/-- Embeds one step of the second loop of `combineTours`: skip the node if
its id was already used, else scan for the next empty slot from the current
`idx`, write the node there and record its id.  Every write lands inside the
array when the parents are permutations of a duplicate-free node set
(proved below), which is the only regime the engine uses. -/
def fillStep (st : List (Option Node) × Finset ℤ × ℕ) (v : Node) :
    List (Option Node) × Finset ℤ × ℕ :=
  if v.id ∈ st.2.1 then st
  else
    let p := firstFree st.1 st.2.2
    (st.1.set p (some v), insert v.id st.2.1, p)

/-- Invariant of the crossover fill loop state `(child, used, idx)` over the
first parent `t1`: the child keeps `t1`'s size, every slot below `idx` is
filled, the filled nodes carry pairwise distinct ids drawn from `t1`'s ids,
and `used` is exactly the set of filled ids. -/
structure FillInv (t1 : List Node) (st : List (Option Node) × Finset ℤ × ℕ) : Prop where
  hlen : st.1.length = t1.length
  hfill : ∀ p, p < st.2.2 → (st.1.getD p none).isSome
  hnodup : (st.1.reduceOption.map fun v => v.id).Nodup
  hused : st.2.1 = (st.1.reduceOption.map fun v => v.id).toFinset
  hsub : st.2.1 ⊆ (t1.map fun v => v.id).toFinset

theorem getD_set_ne {α : Type} (l : List (Option α)) (i q : ℕ) (b : Option α)
    (h : q ≠ i) : (l.set i b).getD q none = l.getD q none := by
  by_cases hq : q < l.length
  · rw [List.getD_eq_getElem _ _ (by simpa using hq), List.getD_eq_getElem _ _ hq]
    rw [List.getElem_set]
    rw [if_neg (fun h' => h h'.symm)]
  · rw [List.getD_eq_default _ _ (by simpa using Nat.le_of_not_lt hq),
      List.getD_eq_default _ _ (Nat.le_of_not_lt hq)]

theorem exists_none_slot (child : List (Option Node))
    (h : child.reduceOption.length < child.length) :
    ∃ q, q < child.length ∧ child.getD q none = none := by
  induction child with
  | nil => simp at h
  | cons o rest ih =>
    match o with
    | none => exact ⟨0, by simp, rfl⟩
    | some a =>
      rw [List.reduceOption_cons_of_some] at h
      simp only [List.length_cons] at h
      obtain ⟨q, hq1, hq2⟩ := ih (by omega)
      exact ⟨q + 1, by simpa using hq1, by simpa using hq2⟩

theorem reduceOption_set_some (child : List (Option Node)) (p : ℕ) (v : Node)
    (hp : p < child.length) (hnone : child.getD p none = none) :
    (child.set p (some v)).reduceOption.Perm (v :: child.reduceOption) := by
  have hpe : child[p] = none := by
    rw [← List.getD_eq_getElem child none hp]
    exact hnone
  have hdecomp : child = child.take p ++ none :: child.drop (p + 1) := by
    conv_lhs => rw [← take_getElem_drop child p hp]
    rw [hpe]
  have hset : child.set p (some v)
      = child.take p ++ some v :: child.drop (p + 1) := by
    have := List.set_eq_take_append_cons_drop (l := child) (n := p) (a := some v)
    rw [if_pos hp] at this
    exact this
  rw [hset, List.reduceOption_append, List.reduceOption_cons_of_some]
  conv_rhs => rw [hdecomp]
  rw [List.reduceOption_append, List.reduceOption_cons_of_none]
  exact List.perm_middle

theorem fill_fold (t1 : List Node) (hnd1 : (t1.map fun v => v.id).Nodup) :
    ∀ (rem : List Node) (st : List (Option Node) × Finset ℤ × ℕ),
      FillInv t1 st →
      (∀ x ∈ rem, x.id ∈ (t1.map fun v => v.id).toFinset) →
      ((rem.map fun v => v.id).Nodup) →
      FillInv t1 (rem.foldl fillStep st)
      ∧ (rem.foldl fillStep st).1.reduceOption.Perm
          (st.1.reduceOption ++ rem.filter fun v => decide (v.id ∉ st.2.1)) := by
  intro rem
  induction rem with
  | nil =>
    intro st hst _ _
    refine ⟨hst, ?_⟩
    simp
  | cons v rest ih =>
    intro st hst hmem hnd
    have hmemrest : ∀ x ∈ rest, x.id ∈ (t1.map fun v => v.id).toFinset :=
      fun x hx => hmem x (List.mem_cons_of_mem v hx)
    have hndrest : (rest.map fun v => v.id).Nodup := by
      rw [List.map_cons] at hnd
      exact (List.nodup_cons.mp hnd).2
    have hvnotrest : v.id ∉ rest.map fun v => v.id := by
      rw [List.map_cons] at hnd
      exact (List.nodup_cons.mp hnd).1
    rw [List.foldl_cons]
    by_cases hv : v.id ∈ st.2.1
    · have hstep : fillStep st v = st := by
        unfold fillStep
        rw [if_pos hv]
      rw [hstep]
      have hfilter : ((v :: rest).filter fun x => decide (x.id ∉ st.2.1))
          = rest.filter fun x => decide (x.id ∉ st.2.1) := by
        rw [List.filter_cons]
        simp [hv]
      rw [hfilter]
      exact ih st hst hmemrest hndrest
    · obtain ⟨hlen, hfill, hnodup, hused, hsub⟩ := hst
      -- a free slot exists because fewer than `t1.length` slots are filled
      have hcard : st.1.reduceOption.length < st.1.length := by
        have h1 : st.2.1.card = st.1.reduceOption.length := by
          rw [hused, List.toFinset_card_of_nodup hnodup, List.length_map]
        have h2 : st.2.1 ⊂ (t1.map fun v => v.id).toFinset := by
          refine ⟨hsub, fun hcontra => hv (hcontra ?_)⟩
          exact hmem v (List.mem_cons_self v rest)
        have h3 := Finset.card_lt_card h2
        rw [List.toFinset_card_of_nodup hnd1, List.length_map] at h3
        omega
      obtain ⟨q, hq1, hq2⟩ := exists_none_slot st.1 hcard
      have hqidx : st.2.2 ≤ q := by
        by_contra hlt
        have := hfill q (by omega)
        rw [hq2] at this
        simp at this
      obtain ⟨hp1, hp2, hp3, hp4⟩ := firstFree_spec st.1 st.2.2 ⟨q, hqidx, hq1, hq2⟩ hfill
      set p := firstFree st.1 st.2.2 with hpdef
      have hstep : fillStep st v = (st.1.set p (some v), insert v.id st.2.1, p) := by
        unfold fillStep
        rw [if_neg hv]
      rw [hstep]
      have hro : (st.1.set p (some v)).reduceOption.Perm (v :: st.1.reduceOption) :=
        reduceOption_set_some st.1 p v hp2 hp3
      have hroids : ((st.1.set p (some v)).reduceOption.map fun w => w.id).Perm
          (v.id :: (st.1.reduceOption.map fun w => w.id)) := by
        have := hro.map fun w => w.id
        simpa using this
      have hvnotused : v.id ∉ st.1.reduceOption.map fun w => w.id := by
        intro hcontra
        apply hv
        rw [hused]
        exact List.mem_toFinset.mpr hcontra
      have hinv' : FillInv t1 (st.1.set p (some v), insert v.id st.2.1, p) := by
        refine ⟨?_, ?_, ?_, ?_, ?_⟩
        · rw [List.length_set]
          exact hlen
        · intro q' hq'
          have hq'' : q' < p := hq'
          rw [getD_set_ne st.1 p q' (some v) (by omega)]
          exact hp4 q' hq''
        · rw [(List.Perm.nodup_iff hroids)]
          exact List.nodup_cons.mpr ⟨hvnotused, hnodup⟩
        · rw [List.toFinset_eq_of_perm _ _ hroids, List.toFinset_cons, hused]
        · intro x hx
          rcases Finset.mem_insert.mp hx with rfl | hx'
          · exact hmem v (List.mem_cons_self v rest)
          · exact hsub hx'
      obtain ⟨hinvf, hrof⟩ := ih _ hinv' hmemrest hndrest
      refine ⟨hinvf, ?_⟩
      have hfiltereq : (rest.filter fun x => decide (x.id ∉ insert v.id st.2.1))
          = rest.filter fun x => decide (x.id ∉ st.2.1) := by
        apply List.filter_congr
        intro x hx
        have hxv : x.id ≠ v.id := by
          intro hcontra
          apply hvnotrest
          rw [← hcontra]
          exact List.mem_map.mpr ⟨x, hx, rfl⟩
        simp only [decide_eq_decide, Finset.mem_insert]
        constructor
        · intro h1 h2
          exact h1 (Or.inr h2)
        · intro h1 h2
          rcases h2 with h2 | h2
          · exact hxv h2
          · exact h1 h2
      rw [hfiltereq] at hrof
      have hfilter : ((v :: rest).filter fun x => decide (x.id ∉ st.2.1))
          = v :: rest.filter fun x => decide (x.id ∉ st.2.1) := by
        rw [List.filter_cons]
        simp [hv]
      rw [hfilter]
      refine hrof.trans ?_
      refine (List.Perm.append_right _ hro).trans ?_
      exact List.perm_middle.symm

/-- Embeds `combineTours` (src/scatter.ts): draw two cut points uniformly in
`[0, size)` (the draws `r1`, `r2` reduced modulo the size) and sort them
into `start ≤ end`; copy `t1`'s segment `[start, end]` into a fresh array of
`size` empty slots, recording the copied ids; then insert every node of `t2`
whose id is unused into the successive empty slots.  The result may retain
empty slots only for parents outside the engine's regime. -/
def combineTours (r1 r2 : ℕ) (t1 t2 : List Node) : List (Option Node) :=
  let size := t1.length
  let s := min (r1 % size) (r2 % size)
  let e := max (r1 % size) (r2 % size)
  let child0 : List (Option Node) := (List.range size).map fun p =>
    if s ≤ p ∧ p ≤ e then some (t1.getD p default) else none
  let used0 : Finset ℤ := (((t1.take (e + 1)).drop s).map fun v => v.id).toFinset
  (t2.foldl fillStep (child0, used0, 0)).1

/-- The child tour produced by `combineTours`, read back as a node list.
When the parents are permutations of a duplicate-free node set, every slot
is filled (see `combineChild_perm`) and this read matches the source's
returned array exactly. -/
def combineChild (r1 r2 : ℕ) (t1 t2 : List Node) : List Node :=
  (combineTours r1 r2 t1 t2).reduceOption

theorem reduceOption_map_some (l : List Node) : (l.map some).reduceOption = l := by
  induction l with
  | nil => rfl
  | cons a rest ih => simp [ih]

theorem reduceOption_replicate_none (n : ℕ) :
    (List.replicate n (none : Option Node)).reduceOption = [] := by
  induction n with
  | zero => rfl
  | succ n ih => simp [List.replicate_succ, ih]

/-- The freshly written child array of `combineTours` is the segment of `t1`
flanked by empty slots. -/
theorem child0_eq (t1 : List Node) (s e : ℕ) (hse : s ≤ e) (he : e < t1.length) :
    ((List.range t1.length).map fun p =>
      if s ≤ p ∧ p ≤ e then some (t1.getD p default) else none)
    = List.replicate s (none : Option Node)
      ++ ((t1.take (e + 1)).drop s).map some
      ++ List.replicate (t1.length - e - 1) (none : Option Node) := by
  have hlenseg : (((t1.take (e + 1)).drop s).map some).length = e + 1 - s := by
    rw [List.length_map, List.length_drop, List.length_take]
    omega
  apply List.ext_getElem
  · simp only [List.length_map, List.length_range, List.length_append,
      List.length_replicate, hlenseg]
    omega
  · intro p h1 h2
    rw [List.getElem_map, List.getElem_range]
    by_cases hps : p < s
    · rw [if_neg (by omega)]
      rw [List.getElem_append_left
        (by simp only [List.length_append, List.length_replicate, hlenseg]; omega)]
      rw [List.getElem_append_left (by simp only [List.length_replicate]; omega)]
      rw [List.getElem_replicate]
    · by_cases hpe : p ≤ e
      · rw [if_pos ⟨by omega, hpe⟩]
        rw [List.getElem_append_left
          (by simp only [List.length_append, List.length_replicate, hlenseg]; omega)]
        rw [List.getElem_append_right (by simp only [List.length_replicate]; omega)]
        simp only [List.length_replicate]
        rw [List.getElem_map, List.getElem_drop, List.getElem_take]
        have hplen : p < t1.length := by omega
        rw [List.getD_eq_getElem t1 default hplen]
        have hidx : s + (p - s) = p := by omega
        simp only [hidx]
      · rw [if_neg (by omega)]
        rw [List.getElem_append_right
          (by simp only [List.length_append, List.length_replicate, hlenseg]; omega)]
        rw [List.getElem_replicate]

/-- C1's combineTours core: when the two parents are permutations of a
common duplicate-free node set, the child is again a permutation of it. -/
theorem combineChild_perm (r1 r2 : ℕ) (t1 t2 : List Node)
    (hnd : (t1.map fun v => v.id).Nodup) (hperm : t2.Perm t1) (hne : t1 ≠ []) :
    (combineChild r1 r2 t1 t2).Perm t1 := by
  have hsize : 0 < t1.length := List.length_pos.mpr hne
  unfold combineChild combineTours
  set s := min (r1 % t1.length) (r2 % t1.length) with hs
  set e := max (r1 % t1.length) (r2 % t1.length) with he
  have hse : s ≤ e := min_le_max
  have helt : e < t1.length := by
    rw [he]
    exact max_lt (Nat.mod_lt _ hsize) (Nat.mod_lt _ hsize)
  set seg := (t1.take (e + 1)).drop s with hseg
  set pre := t1.take s with hpre
  set post := t1.drop (e + 1) with hpost
  have hdecomp : t1 = pre ++ (seg ++ post) := by
    have h1 : seg = (t1.drop s).take (e + 1 - s) := by
      rw [hseg, List.drop_take]
    have h2 : post = (t1.drop s).drop (e + 1 - s) := by
      rw [hpost, List.drop_drop]
      congr 1
      omega
    rw [h1, h2, hpre, List.take_append_drop, List.take_append_drop]
  have hmapdecomp : (t1.map fun v => v.id)
      = (pre.map fun v => v.id) ++ ((seg.map fun v => v.id) ++ (post.map fun v => v.id)) := by
    conv_lhs => rw [hdecomp]
    simp
  have hnddecomp := hmapdecomp ▸ hnd
  rw [List.nodup_append] at hnddecomp
  obtain ⟨hndpre, hndrest, hdisjpre⟩ := hnddecomp
  rw [List.nodup_append] at hndrest
  obtain ⟨hndseg, hndpost, hdisjsegpost⟩ := hndrest
  set child0 : List (Option Node) := (List.range t1.length).map fun p =>
    if s ≤ p ∧ p ≤ e then some (t1.getD p default) else none with hchild0
  set used0 : Finset ℤ := ((seg.map fun v => v.id)).toFinset with hused0
  have hro0 : child0.reduceOption = seg := by
    rw [hchild0, child0_eq t1 s e hse helt, List.reduceOption_append,
      List.reduceOption_append, reduceOption_map_some]
    simp [reduceOption_replicate_none]
  have hsegsub : (seg.map fun v => v.id).Sublist (t1.map fun v => v.id) := by
    refine List.Sublist.map _ ?_
    rw [hseg]
    exact (List.drop_sublist s _).trans (List.take_sublist (e + 1) t1)
  have hinv0 : FillInv t1 (child0, used0, 0) := by
    refine ⟨by simp [hchild0], fun p hp => absurd hp (Nat.not_lt_zero p), ?_, ?_, ?_⟩
    · rw [hro0]
      exact hndseg
    · rw [hro0]
    · intro x hx
      rw [hused0, List.mem_toFinset] at hx
      exact List.mem_toFinset.mpr (hsegsub.mem hx)
  have hmem2 : ∀ x ∈ t2, x.id ∈ (t1.map fun v => v.id).toFinset := by
    intro x hx
    exact List.mem_toFinset.mpr (List.mem_map.mpr ⟨x, hperm.subset hx, rfl⟩)
  have hnd2 : (t2.map fun v => v.id).Nodup :=
    (hperm.map fun v => v.id).nodup_iff.mpr hnd
  obtain ⟨hinvf, hrof⟩ := fill_fold t1 hnd t2 (child0, used0, 0) hinv0 hmem2 hnd2
  simp only [] at hrof
  rw [hro0] at hrof
  have hfilterperm : (t2.filter fun v => decide (v.id ∉ used0)).Perm
      (t1.filter fun v => decide (v.id ∉ used0)) :=
    List.Perm.filter _ hperm
  have hidused : ∀ y : Node, y.id ∈ used0 ↔ y.id ∈ seg.map fun v => v.id := by
    intro y
    rw [hused0, List.mem_toFinset]
  have hfpre : pre.filter (fun v => decide (v.id ∉ used0)) = pre := by
    rw [List.filter_eq_self]
    intro a ha
    rw [decide_eq_true_eq, hidused]
    intro hcontra
    exact hdisjpre (List.mem_map.mpr ⟨a, ha, rfl⟩) (List.mem_append_left _ hcontra)
  have hfseg : seg.filter (fun v => decide (v.id ∉ used0)) = [] := by
    rw [List.filter_eq_nil_iff]
    intro a ha
    rw [decide_eq_true_eq, hidused]
    intro hcontra
    exact hcontra (List.mem_map.mpr ⟨a, ha, rfl⟩)
  have hfpost : post.filter (fun v => decide (v.id ∉ used0)) = post := by
    rw [List.filter_eq_self]
    intro a ha
    rw [decide_eq_true_eq, hidused]
    intro hcontra
    exact hdisjsegpost hcontra (List.mem_map.mpr ⟨a, ha, rfl⟩)
  have ht1filter : t1.filter (fun v => decide (v.id ∉ used0)) = pre ++ post := by
    conv_lhs => rw [hdecomp]
    rw [List.filter_append, List.filter_append, hfpre, hfseg, hfpost]
    simp
  have hfinal : (seg ++ (pre ++ post)).Perm t1 := by
    have h1 : seg ++ (pre ++ post) = (seg ++ pre) ++ post := by
      rw [List.append_assoc]
    have h2 : ((seg ++ pre) ++ post).Perm ((pre ++ seg) ++ post) :=
      List.Perm.append_right post List.perm_append_comm
    have h3 : (pre ++ seg) ++ post = pre ++ (seg ++ post) := by
      rw [List.append_assoc]
    rw [h1]
    refine h2.trans ?_
    rw [h3, ← hdecomp]
  refine hrof.trans ?_
  refine (List.Perm.append_left seg hfilterperm).trans ?_
  rw [ht1filter]
  exact hfinal

/-- JavaScript `Array.slice(0, k)` with a possibly negative end index:
nonnegative `k` takes the first `k` elements, negative `k` counts from the
end, clamped at 0. -/
def jsSlice {α : Type} (l : List α) (k : ℤ) : List α :=
  if 0 ≤ k then l.take k.toNat else l.take ((l.length : ℤ) + k).toNat

/-- The sort comparator `(a, b) => dist(a) − dist(b)` of `scatterSearch` as
the total preorder it induces; JavaScript's `Array.sort` is a stable sort
for it, modelled with `List.mergeSort`. -/
def distLe (d : Node → Node → ℚ) (a b : List Node) : Bool :=
  decide (calculateTourDistance d a ≤ calculateTourDistance d b)

/-- Embeds the candidate-pool construction of `scatterSearch`
(src/scatter.ts): `candidateSize` random shuffles of the input, each
improved by exhaustive 2-opt; `rsh c` is candidate `c`'s stream of
Fisher–Yates draws. -/
def candidatePool (d : Node → Node → ℚ) (rsh : ℕ → ℕ → ℕ) (nodes : List Node)
    (candidateSize : ℤ) : List (List Node) :=
  (List.range candidateSize.toNat).map fun c => twoOptImproved d (shuffle (rsh c) nodes)

/-- The candidate pool sorted by tour distance. -/
def sortedPool (d : Node → Node → ℚ) (rsh : ℕ → ℕ → ℕ) (nodes : List Node)
    (candidateSize : ℤ) : List (List Node) :=
  (candidatePool d rsh nodes candidateSize).mergeSort (distLe d)

/-- The index pairs `(i, j)`, `i < j`, of the reference-set combination
loops of `scatterSearch`, in source order. -/
def refPairs (m : ℕ) : List (ℕ × ℕ) :=
  (List.range m).flatMap fun i =>
    ((List.range m).filter fun j => decide (i < j)).map fun j => (i, j)

/-- One iteration's batch of new solutions: for every reference-set pair,
combine the two tours (`rcx iter i j` supplies the two cut draws) and
improve the child by exhaustive 2-opt. -/
def scatterChildren (d : Node → Node → ℚ) (rcx : ℕ → ℕ → ℕ → ℕ × ℕ)
    (iter : ℕ) (ref : List (List Node)) : List (List Node) :=
  (refPairs ref.length).map fun ij =>
    twoOptImproved d (combineChild (rcx iter ij.1 ij.2).1 (rcx iter ij.1 ij.2).2
      (ref.getD ij.1 []) (ref.getD ij.2 []))

/-- The `scatterSearch` reference set after `j` iterations: initially the
best `refSetSize` of the sorted candidate pool; each iteration appends all
combined children and re-sorts the whole collection by tour distance —
without truncating it. -/
def refSetAt (d : Node → Node → ℚ) (rsh : ℕ → ℕ → ℕ) (rcx : ℕ → ℕ → ℕ → ℕ × ℕ)
    (nodes : List Node) (candidateSize refSetSize : ℤ) : ℕ → List (List Node)
  | 0 => jsSlice (sortedPool d rsh nodes candidateSize) refSetSize
  | j + 1 =>
    let ref := refSetAt d rsh rcx nodes candidateSize refSetSize j
    (ref ++ scatterChildren d rcx j ref).mergeSort (distLe d)

/-- Embeds `scatterSearch` (src/scatter.ts): build and sort the candidate
pool, record `initialDistance = calculateTourDistance(candidatePool[0])`
(a `TypeError` on an `undefined` element when the pool is empty), run
`maxIterations` reference-set iterations, and return
`(referenceSet[0], its distance, initialDistance)` (again a `TypeError`
when the final reference set is empty).  The source performs no validation
of `maxIterations`, `refSetSize` or `candidateSize`. -/
def scatterSearch (d : Node → Node → ℚ) (rsh : ℕ → ℕ → ℕ)
    (rcx : ℕ → ℕ → ℕ → ℕ × ℕ) (nodes : List Node)
    (maxIterations refSetSize candidateSize : ℤ) :
    Except String (List Node × ℚ × ℚ) :=
  match sortedPool d rsh nodes candidateSize with
  | [] => .error "TypeError: Cannot read properties of undefined (candidatePool[0])"
  | p0 :: _ =>
    match refSetAt d rsh rcx nodes candidateSize refSetSize maxIterations.toNat with
    | [] => .error "TypeError: Cannot read properties of undefined (referenceSet[0])"
    | b :: _ => .ok (b, calculateTourDistance d b, calculateTourDistance d p0)

theorem distLe_trans (d : Node → Node → ℚ) :
    ∀ a b c : List Node, distLe d a b = true → distLe d b c = true →
      distLe d a c = true := by
  intro a b c h1 h2
  rw [distLe, decide_eq_true_eq] at h1 h2 ⊢
  exact le_trans h1 h2

theorem distLe_total (d : Node → Node → ℚ) :
    ∀ a b : List Node, (distLe d a b || distLe d b a) = true := by
  intro a b
  rw [Bool.or_eq_true, distLe, distLe, decide_eq_true_eq, decide_eq_true_eq]
  exact le_total _ _

theorem mergeSort_head_le (d : Node → Node → ℚ) (l : List (List Node))
    (s0 : List Node) (rest : List (List Node))
    (hs : l.mergeSort (distLe d) = s0 :: rest) :
    ∀ b ∈ l, calculateTourDistance d s0 ≤ calculateTourDistance d b := by
  intro b hb
  have hbs : b ∈ s0 :: rest := by
    rw [← hs]
    exact ((List.mergeSort_perm l (distLe d)).mem_iff).mpr hb
  rcases List.mem_cons.mp hbs with rfl | hbrest
  · exact le_refl _
  · have hsorted := List.sorted_mergeSort (distLe_trans d) (distLe_total d) l
    rw [hs] at hsorted
    have := (List.pairwise_cons.mp hsorted).1 b hbrest
    rw [distLe, decide_eq_true_eq] at this
    exact this

theorem refPairs_filter_length (m i : ℕ) :
    (((List.range m).filter fun j => decide (i < j))).length = m - i - 1 := by
  induction m with
  | zero => simp
  | succ m ih =>
    rw [List.range_succ, List.filter_append, List.length_append, ih]
    by_cases him : i < m
    · have hone : List.filter (fun j => decide (i < j)) [m] = [m] := by
        simp [him]
      rw [hone]
      simp only [List.length_cons, List.length_nil]
      omega
    · have hnil : List.filter (fun j => decide (i < j)) [m] = [] := by
        simp [him]
      rw [hnil]
      simp only [List.length_nil]
      omega

theorem refPairs_length (m : ℕ) : (refPairs m).length = m.choose 2 := by
  rw [refPairs, List.length_flatMap]
  have hmap : (List.map (List.length ∘ fun i =>
      ((List.range m).filter fun j => decide (i < j)).map fun j => (i, j)) (List.range m))
      = (List.range m).map fun i => m - i - 1 := by
    apply List.map_congr_left
    intro i _
    simp only [Function.comp_apply, List.length_map]
    exact refPairs_filter_length m i
  rw [hmap]
  have hsum : ((List.range m).map fun i => m - i - 1).sum
      = ∑ i ∈ Finset.range m, (m - i - 1) := rfl
  rw [hsum]
  have hreflect : ∑ i ∈ Finset.range m, (m - i - 1) = ∑ i ∈ Finset.range m, i := by
    have := Finset.sum_range_reflect (fun i => i) m
    calc ∑ i ∈ Finset.range m, (m - i - 1) = ∑ i ∈ Finset.range m, (m - 1 - i) := by
          apply Finset.sum_congr rfl
          intro i _
          omega
      _ = ∑ i ∈ Finset.range m, i := this
  rw [hreflect, Nat.choose_two_right]
  have := Finset.sum_range_id_mul_two m
  omega

theorem mem_refPairs {m i j : ℕ} (h : (i, j) ∈ refPairs m) : i < j ∧ j < m := by
  simp only [refPairs, List.mem_flatMap, List.mem_map, List.mem_filter,
    List.mem_range, decide_eq_true_eq] at h
  obtain ⟨a, _, b, ⟨hb, hab⟩, heq⟩ := h
  cases heq
  exact ⟨hab, hb⟩

theorem refSetAt_length_zero (d : Node → Node → ℚ) (rsh : ℕ → ℕ → ℕ)
    (rcx : ℕ → ℕ → ℕ → ℕ × ℕ) (nodes : List Node) (candidateSize refSetSize : ℤ)
    (hrS : 0 ≤ refSetSize) :
    (refSetAt d rsh rcx nodes candidateSize refSetSize 0).length
      = min refSetSize.toNat candidateSize.toNat := by
  show (jsSlice (sortedPool d rsh nodes candidateSize) refSetSize).length = _
  rw [jsSlice, if_pos hrS, List.length_take]
  congr 1
  rw [sortedPool, (List.mergeSort_perm _ _).length_eq, candidatePool,
    List.length_map, List.length_range]

theorem refSetAt_length_succ (d : Node → Node → ℚ) (rsh : ℕ → ℕ → ℕ)
    (rcx : ℕ → ℕ → ℕ → ℕ × ℕ) (nodes : List Node) (candidateSize refSetSize : ℤ)
    (j : ℕ) :
    (refSetAt d rsh rcx nodes candidateSize refSetSize (j + 1)).length
      = (refSetAt d rsh rcx nodes candidateSize refSetSize j).length
        + ((refSetAt d rsh rcx nodes candidateSize refSetSize j).length).choose 2 := by
  show ((_ ++ scatterChildren d rcx j _).mergeSort (distLe d)).length = _
  rw [(List.mergeSort_perm _ _).length_eq, List.length_append]
  congr 1
  rw [scatterChildren, List.length_map, refPairs_length]

theorem refSetAt_sorted_succ (d : Node → Node → ℚ) (rsh : ℕ → ℕ → ℕ)
    (rcx : ℕ → ℕ → ℕ → ℕ × ℕ) (nodes : List Node) (candidateSize refSetSize : ℤ)
    (j : ℕ) :
    List.Pairwise (fun a b => calculateTourDistance d a ≤ calculateTourDistance d b)
      (refSetAt d rsh rcx nodes candidateSize refSetSize (j + 1)) := by
  have hsorted := List.sorted_mergeSort (distLe_trans d) (distLe_total d)
    (refSetAt d rsh rcx nodes candidateSize refSetSize j
      ++ scatterChildren d rcx j (refSetAt d rsh rcx nodes candidateSize refSetSize j))
  refine hsorted.imp ?_
  intro a b h
  rw [distLe, decide_eq_true_eq] at h
  exact h

theorem refSetAt_head_mono (d : Node → Node → ℚ) (rsh : ℕ → ℕ → ℕ)
    (rcx : ℕ → ℕ → ℕ → ℕ × ℕ) (nodes : List Node) (candidateSize refSetSize : ℤ)
    (h0 : refSetAt d rsh rcx nodes candidateSize refSetSize 0 ≠ []) :
    ∀ j : ℕ, refSetAt d rsh rcx nodes candidateSize refSetSize j ≠ []
      ∧ calculateTourDistance d
          ((refSetAt d rsh rcx nodes candidateSize refSetSize j).headD [])
        ≤ calculateTourDistance d
          ((refSetAt d rsh rcx nodes candidateSize refSetSize 0).headD []) := by
  intro j
  induction j with
  | zero => exact ⟨h0, le_refl _⟩
  | succ j ih =>
    obtain ⟨hne, hle⟩ := ih
    set ref := refSetAt d rsh rcx nodes candidateSize refSetSize j with href
    have hlen : (refSetAt d rsh rcx nodes candidateSize refSetSize (j + 1)).length
        = ref.length + ref.length.choose 2 :=
      refSetAt_length_succ d rsh rcx nodes candidateSize refSetSize j
    have hne' : refSetAt d rsh rcx nodes candidateSize refSetSize (j + 1) ≠ [] := by
      intro hcontra
      rw [hcontra] at hlen
      have : 0 < ref.length := List.length_pos.mpr hne
      simp at hlen
      omega
    refine ⟨hne', ?_⟩
    match heq : refSetAt d rsh rcx nodes candidateSize refSetSize (j + 1) with
    | [] => exact absurd heq hne'
    | s0 :: rest =>
      have heq' : (ref ++ scatterChildren d rcx j ref).mergeSort (distLe d)
          = s0 :: rest := heq
      have hmem : ref.headD [] ∈ ref ++ scatterChildren d rcx j ref :=
        List.mem_append_left _ (headD_mem ref [] hne)
      have hle2 := mergeSort_head_le d _ s0 rest heq' _ hmem
      simp only [List.headD_cons]
      exact le_trans hle2 hle

theorem refSetAt_mem_perm (d : Node → Node → ℚ) (rsh : ℕ → ℕ → ℕ)
    (rcx : ℕ → ℕ → ℕ → ℕ × ℕ) (nodes : List Node) (candidateSize refSetSize : ℤ)
    (hnodup : (nodes.map fun v => v.id).Nodup) (hne : nodes ≠ []) :
    ∀ j : ℕ, (∀ t ∈ refSetAt d rsh rcx nodes candidateSize refSetSize j, t.Perm nodes)
      ∧ (∀ t ∈ scatterChildren d rcx j
          (refSetAt d rsh rcx nodes candidateSize refSetSize j), t.Perm nodes) := by
  have hpool : ∀ t ∈ candidatePool d rsh nodes candidateSize, t.Perm nodes := by
    intro t ht
    rw [candidatePool] at ht
    obtain ⟨c, _, rfl⟩ := List.mem_map.mp ht
    exact (twoOptLoop_perm d _ _).trans (shuffle_perm (rsh c) nodes)
  have hchild : ∀ (j : ℕ) (ref : List (List Node)),
      (∀ t ∈ ref, t.Perm nodes) → ∀ t ∈ scatterChildren d rcx j ref, t.Perm nodes := by
    intro j ref href t ht
    rw [scatterChildren] at ht
    obtain ⟨ij, hij, rfl⟩ := List.mem_map.mp ht
    obtain ⟨hij1, hij2⟩ := mem_refPairs (by
      have : ij = (ij.1, ij.2) := rfl
      rw [← this]
      exact hij)
    have ht1 : ref.getD ij.1 [] ∈ ref := by
      rw [List.getD_eq_getElem _ _ (by omega)]
      exact List.getElem_mem _
    have ht2 : ref.getD ij.2 [] ∈ ref := by
      rw [List.getD_eq_getElem _ _ hij2]
      exact List.getElem_mem _
    have hp1 : (ref.getD ij.1 []).Perm nodes := href _ ht1
    have hp2 : (ref.getD ij.2 []).Perm nodes := href _ ht2
    have hnd1 : ((ref.getD ij.1 []).map fun v => v.id).Nodup :=
      ((hp1.map fun v => v.id).nodup_iff).mpr hnodup
    have hperm12 : (ref.getD ij.2 []).Perm (ref.getD ij.1 []) := hp2.trans hp1.symm
    have hne1 : ref.getD ij.1 [] ≠ [] := by
      intro hcontra
      have := hp1.length_eq
      rw [hcontra] at this
      simp at this
      exact hne (List.length_eq_zero.mp this.symm)
    have hcomb := combineChild_perm (rcx j ij.1 ij.2).1 (rcx j ij.1 ij.2).2
      (ref.getD ij.1 []) (ref.getD ij.2 []) hnd1 hperm12 hne1
    exact (twoOptLoop_perm d _ _).trans (hcomb.trans hp1)
  intro j
  induction j with
  | zero =>
    have hbase : ∀ t ∈ refSetAt d rsh rcx nodes candidateSize refSetSize 0, t.Perm nodes := by
      intro t ht
      have hts : t ∈ sortedPool d rsh nodes candidateSize := by
        have hsub : (jsSlice (sortedPool d rsh nodes candidateSize) refSetSize).Sublist
            (sortedPool d rsh nodes candidateSize) := by
          rw [jsSlice]
          split <;> exact List.take_sublist _ _
        exact hsub.mem ht
      rw [sortedPool] at hts
      exact hpool t (((List.mergeSort_perm _ _).mem_iff).mp hts)
    exact ⟨hbase, hchild 0 _ hbase⟩
  | succ j ih =>
    obtain ⟨href, hch⟩ := ih
    have hstep : ∀ t ∈ refSetAt d rsh rcx nodes candidateSize refSetSize (j + 1),
        t.Perm nodes := by
      intro t ht
      have hts : t ∈ refSetAt d rsh rcx nodes candidateSize refSetSize j
          ++ scatterChildren d rcx j (refSetAt d rsh rcx nodes candidateSize refSetSize j) :=
        ((List.mergeSort_perm _ _).mem_iff).mp ht
      rcases List.mem_append.mp hts with h | h
      · exact href t h
      · exact hch t h
    exact ⟨hstep, hchild (j + 1) _ hstep⟩

/-- Fixed random stream used by witnesses for the Fisher–Yates draws. -/
def wR1 : ℕ → ℕ → ℕ := fun _ _ => 0

/-- Fixed random stream used by witnesses for the crossover cut draws. -/
def wR2 : ℕ → ℕ → ℕ → ℕ × ℕ := fun _ _ _ => (0, 0)

/-- C3 counterexample: a concrete `scatterSearch` run (three nodes, two
candidates, `refSetSize = 2`) whose reference set holds 3 tours after the
first batch of new candidates is folded in — more than `refSetSize`.  The
code re-sorts but never truncates the set. -/
theorem claim_C3_counterexample :
    (refSetAt axisDist wR1 wR2 pts3 2 2 1).length = 3
    ∧ ¬ ((refSetAt axisDist wR1 wR2 pts3 2 2 1).length ≤ 2) := by
  have h0 : (refSetAt axisDist wR1 wR2 pts3 2 2 0).length = 2 := by
    rw [refSetAt_length_zero axisDist wR1 wR2 pts3 2 2 (by norm_num)]
    decide
  have h1 := refSetAt_length_succ axisDist wR1 wR2 pts3 2 2 0
  rw [h0] at h1
  have hch : Nat.choose 2 2 = 1 := by decide
  rw [hch] at h1
  simp only [Nat.zero_add] at h1
  exact ⟨by omega, by omega⟩

/-- C3, amended: throughout every run of `scatterSearch` (src/scatter.ts),
after each batch of new candidate solutions is folded into the reference
set, the set is re-sorted by tour length (first conjunct) but it is NOT
truncated: its size grows by one child per unordered pair of current
members, `|R(j+1)| = |R(j)| + C(|R(j)|, 2)` (second conjunct), so it
strictly exceeds any previous size — in particular `refSetSize` — as soon
as it has at least two members (fourth conjunct).  Only the initial
reference set is limited to `refSetSize` tours (third conjunct). -/
theorem claim_C3 (d : Node → Node → ℚ) (rsh : ℕ → ℕ → ℕ)
    (rcx : ℕ → ℕ → ℕ → ℕ × ℕ) (nodes : List Node) (candidateSize refSetSize : ℤ)
    (j : ℕ) (hrS : 0 ≤ refSetSize) :
    List.Pairwise (fun a b => calculateTourDistance d a ≤ calculateTourDistance d b)
      (refSetAt d rsh rcx nodes candidateSize refSetSize (j + 1))
    ∧ (refSetAt d rsh rcx nodes candidateSize refSetSize (j + 1)).length
        = (refSetAt d rsh rcx nodes candidateSize refSetSize j).length
          + ((refSetAt d rsh rcx nodes candidateSize refSetSize j).length).choose 2
    ∧ (refSetAt d rsh rcx nodes candidateSize refSetSize 0).length
        = min refSetSize.toNat candidateSize.toNat
    ∧ (2 ≤ (refSetAt d rsh rcx nodes candidateSize refSetSize j).length →
        (refSetAt d rsh rcx nodes candidateSize refSetSize j).length
          < (refSetAt d rsh rcx nodes candidateSize refSetSize (j + 1)).length) := by
  refine ⟨refSetAt_sorted_succ d rsh rcx nodes candidateSize refSetSize j,
    refSetAt_length_succ d rsh rcx nodes candidateSize refSetSize j,
    refSetAt_length_zero d rsh rcx nodes candidateSize refSetSize hrS, ?_⟩
  intro h2
  rw [refSetAt_length_succ d rsh rcx nodes candidateSize refSetSize j]
  have := Nat.choose_pos (n := (refSetAt d rsh rcx nodes candidateSize refSetSize j).length)
    (k := 2) h2
  omega

/-- Witness for C3 at the concrete run of the counterexample. -/
theorem claim_C3_witness :
    (0 : ℤ) ≤ 2
    ∧ (List.Pairwise (fun a b =>
          calculateTourDistance axisDist a ≤ calculateTourDistance axisDist b)
        (refSetAt axisDist wR1 wR2 pts3 2 2 1)
      ∧ (refSetAt axisDist wR1 wR2 pts3 2 2 1).length
          = (refSetAt axisDist wR1 wR2 pts3 2 2 0).length
            + ((refSetAt axisDist wR1 wR2 pts3 2 2 0).length).choose 2
      ∧ (refSetAt axisDist wR1 wR2 pts3 2 2 0).length = min (2 : ℤ).toNat (2 : ℤ).toNat
      ∧ (2 ≤ (refSetAt axisDist wR1 wR2 pts3 2 2 0).length →
          (refSetAt axisDist wR1 wR2 pts3 2 2 0).length
            < (refSetAt axisDist wR1 wR2 pts3 2 2 1).length)) :=
  ⟨by decide, claim_C3 axisDist wR1 wR2 pts3 2 2 0 (by decide)⟩

/-- C2: for every non-empty input (with pairwise distinct ids, which is also
what makes the nearest-neighbour warm start of `antColony` terminate), each
engine's returned `bestDistance` is at most its returned `initialDistance`:
`tabuSearch` never returns a distance above the natural-order starting
tour's length, `scatterSearch` (with at least one candidate and a positive
reference-set size, so that it returns at all) never returns a distance
above the best of its initial candidate pool, and `antColony` never returns
a distance above its nearest-neighbour warm-start tour's length.  This
holds for every distance function, every configuration and every stream of
random draws. -/
theorem claim_C2 (d : Node → Node → ℚ) (nodes : List Node)
    (maxIterationsT tabuTenure : ℤ) (rsh : ℕ → ℕ → ℕ) (rcx : ℕ → ℕ → ℕ → ℕ × ℕ)
    (maxIterationsS refSetSize candidateSize : ℤ) (env : AntEnv) (rnn : ℕ)
    (hne : nodes ≠ []) (hnodup : (nodes.map fun v => v.id).Nodup)
    (hcS : 1 ≤ candidateSize) (hrS : 1 ≤ refSetSize) :
    (tabuSearch d nodes maxIterationsT tabuTenure).2.1
      ≤ (tabuSearch d nodes maxIterationsT tabuTenure).2.2
    ∧ (∃ res, scatterSearch d rsh rcx nodes maxIterationsS refSetSize candidateSize
        = Except.ok res ∧ res.2.1 ≤ res.2.2)
    ∧ (∃ res, antColony d env rnn nodes = Except.ok res ∧ res.2.1 ≤ res.2.2) := by
  refine ⟨?_, ?_, ?_⟩
  · exact tabuStateAt_bestDistance_le d tabuTenure nodes maxIterationsT.toNat
  · -- Scatter Search
    have hpoollen : (sortedPool d rsh nodes candidateSize).length = candidateSize.toNat := by
      rw [sortedPool, (List.mergeSort_perm _ _).length_eq, candidatePool,
        List.length_map, List.length_range]
    have hpoolpos : 0 < (sortedPool d rsh nodes candidateSize).length := by
      rw [hpoollen]
      omega
    match hsp : sortedPool d rsh nodes candidateSize with
    | [] => rw [hsp] at hpoolpos; simp at hpoolpos
    | p0 :: ps =>
      have hrSnat : ∃ m, refSetSize.toNat = m + 1 := by
        have : 1 ≤ refSetSize.toNat := by omega
        exact ⟨refSetSize.toNat - 1, by omega⟩
      obtain ⟨m, hm⟩ := hrSnat
      have href0 : refSetAt d rsh rcx nodes candidateSize refSetSize 0 = p0 :: ps.take m := by
        show jsSlice (sortedPool d rsh nodes candidateSize) refSetSize = _
        rw [jsSlice, if_pos (by omega), hsp, hm]
        rfl
      have h0ne : refSetAt d rsh rcx nodes candidateSize refSetSize 0 ≠ [] := by
        rw [href0]
        simp
      obtain ⟨hfne, hfle⟩ := refSetAt_head_mono d rsh rcx nodes candidateSize refSetSize
        h0ne maxIterationsS.toNat
      match hfin : refSetAt d rsh rcx nodes candidateSize refSetSize maxIterationsS.toNat with
      | [] => exact absurd hfin hfne
      | b :: rest =>
        refine ⟨(b, calculateTourDistance d b, calculateTourDistance d p0), ?_, ?_⟩
        · simp only [scatterSearch, hsp, hfin]
        · rw [hfin] at hfle
          rw [href0] at hfle
          simpa using hfle
  · -- Ant Colony
    obtain ⟨t, ht, hperm⟩ := nearestNeighbor_ok d rnn nodes hne hnodup
    refine ⟨((antStateAt d env nodes t env.iterations.toNat).bestPath,
      (antStateAt d env nodes t env.iterations.toNat).bestDistance,
      calculateTourDistance d t), ?_, ?_⟩
    · simp only [antColony, ht]
    · exact (antStateAt_inv d env nodes t hne hperm env.iterations.toNat).2.2

/-- Witness for C2 at the concrete input `pts3`. -/
theorem claim_C2_witness :
    pts3 ≠ [] ∧ (pts3.map fun v => v.id).Nodup
    ∧ (1 : ℤ) ≤ 2 ∧ (1 : ℤ) ≤ 2
    ∧ ((tabuSearch axisDist pts3 3 20).2.1 ≤ (tabuSearch axisDist pts3 3 20).2.2
      ∧ (∃ res, scatterSearch axisDist wR1 wR2 pts3 1 2 2
          = Except.ok res ∧ res.2.1 ≤ res.2.2)
      ∧ (∃ res, antColony axisDist wEnv 0 pts3 = Except.ok res ∧ res.2.1 ≤ res.2.2)) :=
  ⟨by decide, by decide, by decide, by decide,
    claim_C2 axisDist pts3 3 20 wR1 wR2 1 2 2 wEnv 0 (by decide) (by decide)
      (by decide) (by decide)⟩

/-- C1: for every input whose points have pairwise distinct ids, every tour
any engine produces is a permutation of the input node list (hence contains
exactly the input's ids, each exactly once): for Tabu Search the current
and best solutions at every iteration and the returned best tour; for
Scatter Search every initial candidate, every member of the reference set
at every iteration, every child built by `combineTours` (both for arbitrary
permutation parents `t1`, `t2` and for the children of each iteration) and
the returned best tour; for Ant Colony every ant's tour in every generation
under any pheromone matrix, the incumbent best path at every generation
(for any warm start that permutes the input, as the nearest-neighbour one
always does) and the returned best tour.  Quantification is over every
distance function, configuration and random stream. -/
theorem claim_C1 (d : Node → Node → ℚ) (rsh : ℕ → ℕ → ℕ)
    (rcx : ℕ → ℕ → ℕ → ℕ × ℕ) (nodes t1 t2 : List Node) (r1 r2 : ℕ)
    (maxIterationsT tabuTenure candidateSize refSetSize maxIterationsS : ℤ)
    (env : AntEnv) (rnn : ℕ) (initialTour : List Node) (pher : ℕ → ℕ → ℚ)
    (jT jS g k : ℕ)
    (hnodup : (nodes.map fun v => v.id).Nodup) (hne : nodes ≠ [])
    (ht1 : t1.Perm nodes) (ht2 : t2.Perm nodes)
    (hinit : initialTour.Perm nodes) :
    ((tabuStateAt d tabuTenure nodes jT).current.Perm nodes
      ∧ (tabuStateAt d tabuTenure nodes jT).bestSolution.Perm nodes)
    ∧ (tabuSearch d nodes maxIterationsT tabuTenure).1.Perm nodes
    ∧ (∀ t ∈ candidatePool d rsh nodes candidateSize, t.Perm nodes)
    ∧ (∀ t ∈ refSetAt d rsh rcx nodes candidateSize refSetSize jS, t.Perm nodes)
    ∧ (∀ t ∈ scatterChildren d rcx jS
        (refSetAt d rsh rcx nodes candidateSize refSetSize jS), t.Perm nodes)
    ∧ (combineChild r1 r2 t1 t2).Perm nodes
    ∧ (∀ res, scatterSearch d rsh rcx nodes maxIterationsS refSetSize candidateSize
        = Except.ok res → res.1.Perm nodes)
    ∧ (antBuildTour d env nodes pher g k).Perm nodes
    ∧ (antStateAt d env nodes initialTour g).bestPath.Perm nodes
    ∧ (∀ res, antColony d env rnn nodes = Except.ok res → res.1.Perm nodes) := by
  obtain ⟨hrefperm, hchildperm⟩ :=
    refSetAt_mem_perm d rsh rcx nodes candidateSize refSetSize hnodup hne jS
  refine ⟨tabuStateAt_perm d tabuTenure nodes jT,
    (tabuStateAt_perm d tabuTenure nodes maxIterationsT.toNat).2, ?_, hrefperm,
    hchildperm, ?_, ?_, antBuildTour_perm d env nodes pher g k hne,
    (antStateAt_inv d env nodes initialTour hne hinit g).1, ?_⟩
  · intro t ht
    rw [candidatePool] at ht
    obtain ⟨c, _, rfl⟩ := List.mem_map.mp ht
    exact (twoOptLoop_perm d _ _).trans (shuffle_perm (rsh c) nodes)
  · have hnd1 : (t1.map fun v => v.id).Nodup :=
      ((ht1.map fun v => v.id).nodup_iff).mpr hnodup
    have hne1 : t1 ≠ [] := by
      intro hcontra
      rw [hcontra] at ht1
      exact hne (ht1.symm.eq_nil)
    exact (combineChild_perm r1 r2 t1 t2 hnd1 (ht2.trans ht1.symm) hne1).trans ht1
  · match hsp : sortedPool d rsh nodes candidateSize with
    | [] =>
      intro res hres
      simp only [scatterSearch, hsp] at hres
      exact Except.noConfusion hres
    | p0 :: ps =>
      match hfin : refSetAt d rsh rcx nodes candidateSize refSetSize
          maxIterationsS.toNat with
      | [] =>
        intro res hres
        simp only [scatterSearch, hsp, hfin] at hres
        exact Except.noConfusion hres
      | b :: rest =>
        intro res hres
        simp only [scatterSearch, hsp, hfin, Except.ok.injEq] at hres
        have hb : b ∈ refSetAt d rsh rcx nodes candidateSize refSetSize
            maxIterationsS.toNat := by
          rw [hfin]
          exact List.mem_cons_self b rest
        have hperm := (refSetAt_mem_perm d rsh rcx nodes candidateSize refSetSize
          hnodup hne maxIterationsS.toNat).1 b hb
        rw [← hres]
        exact hperm
  · intro res hres
    obtain ⟨t', ht', hperm'⟩ := nearestNeighbor_ok d rnn nodes hne hnodup
    simp only [antColony, ht', Except.ok.injEq] at hres
    rw [← hres]
    exact (antStateAt_inv d env nodes t' hne hperm' env.iterations.toNat).1

/-- Witness for C1 at the concrete input `pts3`. -/
theorem claim_C1_witness :
    (pts3.map fun v => v.id).Nodup ∧ pts3 ≠ []
    ∧ pts3.Perm pts3 ∧ pts3.Perm pts3 ∧ pts3.Perm pts3
    ∧ (((tabuStateAt axisDist 20 pts3 1).current.Perm pts3
        ∧ (tabuStateAt axisDist 20 pts3 1).bestSolution.Perm pts3)
      ∧ (tabuSearch axisDist pts3 3 20).1.Perm pts3
      ∧ (∀ t ∈ candidatePool axisDist wR1 pts3 2, t.Perm pts3)
      ∧ (∀ t ∈ refSetAt axisDist wR1 wR2 pts3 2 2 1, t.Perm pts3)
      ∧ (∀ t ∈ scatterChildren axisDist wR2 1 (refSetAt axisDist wR1 wR2 pts3 2 2 1),
          t.Perm pts3)
      ∧ (combineChild 0 0 pts3 pts3).Perm pts3
      ∧ (∀ res, scatterSearch axisDist wR1 wR2 pts3 1 2 2 = Except.ok res →
          res.1.Perm pts3)
      ∧ (antBuildTour axisDist wEnv pts3 (fun _ _ => 1) 1 0).Perm pts3
      ∧ (antStateAt axisDist wEnv pts3 pts3 1).bestPath.Perm pts3
      ∧ (∀ res, antColony axisDist wEnv 0 pts3 = Except.ok res → res.1.Perm pts3)) :=
  ⟨by decide, by decide, List.Perm.refl pts3, List.Perm.refl pts3, List.Perm.refl pts3,
    claim_C1 axisDist wR1 wR2 pts3 pts3 pts3 0 0 3 20 2 2 1 wEnv 0 pts3
      (fun _ _ => 1) 1 1 1 0 (by decide) (by decide) (List.Perm.refl pts3)
      (List.Perm.refl pts3) (List.Perm.refl pts3)⟩

/-- Counterexample to C4: the engines do not fail fast with a descriptive
invalid-configuration error on malformed configurations.  `tabuSearch` with
the non-positive `maxIterations = -1` silently returns the starting order
and its distance rather than any error, and `scatterSearch` with the
non-positive `candidateSize = 0` fails with a `TypeError` from indexing the
empty candidate pool, not with a descriptive invalid-configuration
message. -/
theorem claim_C4_counterexample :
    tabuSearch axisDist pts3 (-1) 20
      = (pts3, calculateTourDistance axisDist pts3,
          calculateTourDistance axisDist pts3)
    ∧ scatterSearch axisDist wR1 wR2 pts3 5 5 0
      = Except.error
          "TypeError: Cannot read properties of undefined (candidatePool[0])" := by
  constructor
  · rfl
  · have hsp : sortedPool axisDist wR1 pts3 0 = [] := by
      unfold sortedPool candidatePool
      simp only [Int.toNat_zero, List.range_zero, List.map_nil, List.mergeSort_nil]
    simp only [scatterSearch, hsp]

/-- C4, corrected: no engine validates its configuration; malformed
configurations are run silently instead of failing fast.  With a
non-positive `maxIterations`, `tabuSearch` performs zero iterations and
returns the starting order as best tour together with its distance (for
any `tabuTenure`).  With a non-positive `candidateSize`, `scatterSearch`
indexes into an empty candidate pool and fails with a `TypeError`, not a
descriptive invalid-configuration error.  With non-positive `iterations`,
`antColony` performs zero generations and returns the nearest-neighbour
warm-start tour and its distance unchanged (for any `ants`). -/
theorem claim_C4 (d : Node → Node → ℚ) (rsh : ℕ → ℕ → ℕ)
    (rcx : ℕ → ℕ → ℕ → ℕ × ℕ) (nodes : List Node) (env : AntEnv) (rnn : ℕ)
    (maxIterationsT tabuTenure maxIterationsS refSetSize candidateSize : ℤ)
    (hmiT : maxIterationsT ≤ 0) (hcs : candidateSize ≤ 0)
    (hit : env.iterations ≤ 0) (hne : nodes ≠ [])
    (hnodup : (nodes.map fun v => v.id).Nodup) :
    tabuSearch d nodes maxIterationsT tabuTenure
      = (nodes, calculateTourDistance d nodes, calculateTourDistance d nodes)
    ∧ scatterSearch d rsh rcx nodes maxIterationsS refSetSize candidateSize
      = Except.error
          "TypeError: Cannot read properties of undefined (candidatePool[0])"
    ∧ ∃ t, nearestNeighbor d rnn nodes = Except.ok t
        ∧ antColony d env rnn nodes
          = Except.ok (t, calculateTourDistance d t, calculateTourDistance d t) := by
  refine ⟨?_, ?_, ?_⟩
  · unfold tabuSearch
    rw [Int.toNat_of_nonpos hmiT]
    rfl
  · have hsp : sortedPool d rsh nodes candidateSize = [] := by
      unfold sortedPool candidatePool
      rw [Int.toNat_of_nonpos hcs]
      simp only [List.range_zero, List.map_nil, List.mergeSort_nil]
    simp only [scatterSearch, hsp]
  · obtain ⟨t, ht, hperm⟩ := nearestNeighbor_ok d rnn nodes hne hnodup
    refine ⟨t, ht, ?_⟩
    simp only [antColony, ht]
    rw [Int.toNat_of_nonpos hit]
    rfl

/-- Witness for C4 at the concrete input `pts3` with `maxIterations = -1`,
`tabuTenure = 20`, `candidateSize = 0` and the zero-iteration ACO
environment `wEnv0`. -/
theorem claim_C4_witness :
    ((-1 : ℤ) ≤ 0 ∧ (0 : ℤ) ≤ 0 ∧ wEnv0.iterations ≤ 0 ∧ pts3 ≠ []
        ∧ (pts3.map fun v => v.id).Nodup)
    ∧ (tabuSearch axisDist pts3 (-1) 20
        = (pts3, calculateTourDistance axisDist pts3,
            calculateTourDistance axisDist pts3)
      ∧ scatterSearch axisDist wR1 wR2 pts3 5 5 0
        = Except.error
            "TypeError: Cannot read properties of undefined (candidatePool[0])"
      ∧ ∃ t, nearestNeighbor axisDist 0 pts3 = Except.ok t
          ∧ antColony axisDist wEnv0 0 pts3
            = Except.ok (t, calculateTourDistance axisDist t,
                calculateTourDistance axisDist t)) :=
  ⟨⟨by decide, by decide, by decide, by decide, by decide⟩,
    claim_C4 axisDist wR1 wR2 pts3 wEnv0 0 (-1) 20 5 5 0
      (by decide) (by decide) (by decide) (by decide) (by decide)⟩

end TspSO
